import Mathlib

/-!
Verification development for the bestdiff unified-diff model and
visual-alignment engine.  JavaScript strings are modelled as `List Char`
(`Str`), JS numbers as `Nat`/`Int`/`Rat` as appropriate, and the stateful
TypeScript functions as explicit state-passing folds.
-/

set_option maxHeartbeats 1000000

abbrev Str := List Char

def digitCh (d : Nat) : Char := Char.ofNat (48 + d)

/-- Base-10 digits, least significant first, by fuel-bounded recursion so
that the kernel can evaluate it. -/
def natDigitsRev : Nat → Nat → List Nat
  | 0, _ => []
  | f + 1, n => if n = 0 then [] else n % 10 :: natDigitsRev f (n / 10)

/-- Decimal rendering of a natural number, as produced by JS template
interpolation of a non-negative integer. -/
def natToStr (n : Nat) : Str :=
  if n = 0 then ['0'] else (natDigitsRev n n).reverse.map digitCh

/-- Decimal rendering of a JS number known to be an integer. -/
def intToStr (i : Int) : Str :=
  if i < 0 then '-' :: natToStr i.natAbs else natToStr i.toNat

/-- `s.split("\n")` of JavaScript: always at least one (possibly empty) piece. -/
def splitNl : Str → List Str
  | [] => [[]]
  | c :: rest =>
    if c = '\n' then [] :: splitNl rest
    else
      match splitNl rest with
      | [] => [[c]]
      | h :: t => (c :: h) :: t

/-- `input.replace(/\r\n?/g, "\n")` — every CRLF pair and every bare CR
becomes a single LF. -/
def normalizeLineEndings : Str → Str
  | [] => []
  | '\r' :: '\n' :: rest => '\n' :: normalizeLineEndings rest
  | '\r' :: rest => '\n' :: normalizeLineEndings rest
  | c :: rest => c :: normalizeLineEndings rest

/-- JS `String.prototype.trim`. -/
def trimWs (s : Str) : Str :=
  ((s.dropWhile Char.isWhitespace).reverse.dropWhile Char.isWhitespace).reverse

/-- Strip a literal from the front of a string, or fail. -/
def stripLit (lit : String) (s : Str) : Option Str :=
  if lit.toList.isPrefixOf s then some (s.drop lit.toList.length) else none

/-- Value of a nonempty digit string, as JS `Number` on it. -/
def digitsToNat (d : Str) : Nat :=
  d.foldl (fun a c => a * 10 + (c.toNat - 48)) 0

/- ---------------------------------------------------------------- -/
/- Data model (src/shared/diff/model.ts)                            -/
/- ---------------------------------------------------------------- -/

inductive DiffFileStatus
  | added
  | modified
  | deleted
deriving DecidableEq, Repr

inductive DiffLineType
  | context
  | added
  | removed
deriving DecidableEq, Repr

structure DiffLine where
  type : DiffLineType
  content : Str
  oldLineNumber : Option Nat := none
  newLineNumber : Option Nat := none
deriving DecidableEq, Repr

structure DiffHunk where
  header : Str
  oldStart : Nat
  oldLines : Nat
  newStart : Nat
  newLines : Nat
  lines : List DiffLine
deriving DecidableEq, Repr

structure DiffFile where
  oldPath : Option Str
  newPath : Option Str
  status : DiffFileStatus
  hunks : List DiffHunk
deriving DecidableEq, Repr

structure DiffParseResult where
  files : List DiffFile
deriving DecidableEq, Repr

/- ---------------------------------------------------------------- -/
/- Parser (src/shared/diff/parse.ts)                                -/
/- ---------------------------------------------------------------- -/

/-- Lazy split of the `DIFF_HEADER` regex tail: the first position (after at
least one consumed character) where `" b/"` follows with a nonempty rest.
Mirrors `/^diff --git a\/(.+?) b\/(.+)$/` after the fixed head is stripped. -/
def gitSplit (acc : Str) : Str → Option (Str × Str)
  | [] => none
  | c :: rest =>
    if " b/".toList.isPrefixOf rest ∧ rest.drop 3 ≠ [] then
      some (acc ++ [c], rest.drop 3)
    else
      gitSplit (acc ++ [c]) rest

/-- `DIFF_HEADER.exec(line)`: the two path groups when the line matches. -/
def matchDiffHeader (line : Str) : Option (Str × Str) :=
  match stripLit "diff --git a/" line with
  | none => none
  | some rest => gitSplit [] rest

/-- The optional `,(\d+)` group of the hunk header: a comma must be followed
by at least one digit, and a missing comma leaves the group absent. -/
def optCount : Str → Option (Option Nat × Str)
  | ',' :: rest =>
    let d := rest.takeWhile Char.isDigit
    if d = [] then none else some (some (digitsToNat d), rest.dropWhile Char.isDigit)
  | s => some (none, s)

/-- `HUNK_HEADER.exec(line)`: `@@ -(\d+)(?:,(\d+))? \+(\d+)(?:,(\d+))? @@` —
returns (oldStart, oldLines group, newStart, newLines group). -/
def matchHunkHeader (line : Str) : Option (Nat × Option Nat × Nat × Option Nat) :=
  match stripLit "@@ -" line with
  | none => none
  | some r1 =>
    let d1 := r1.takeWhile Char.isDigit
    if d1 = [] then none else
    match optCount (r1.dropWhile Char.isDigit) with
    | none => none
    | some (g2, r2) =>
      match stripLit " +" r2 with
      | none => none
      | some r3 =>
        let d3 := r3.takeWhile Char.isDigit
        if d3 = [] then none else
        match optCount (r3.dropWhile Char.isDigit) with
        | none => none
        | some (g4, r4) =>
          match stripLit " @@" r4 with
          | none => none
          | some _ => some (digitsToNat d1, g2, digitsToNat d3, g4)

/-- `--- <path>` / `+++ <path>` handling: trim, `/dev/null` to null, strip
one leading `a/` (resp. `b/`). -/
def parsePathField (marker : String) (rest : Str) : Option Str :=
  let p := trimWs rest
  if p = "/dev/null".toList then none
  else if (marker.toList).isPrefixOf p then p.drop 2 else p

/-- `ensureStatus`: finalize a pending file status.  The `!file.status`
branch of the source can never fire (status is initialized to "modified" at
creation), so the function reduces to the two path-driven overrides. -/
def ensureStatus (f : DiffFile) : DiffFile :=
  if f.oldPath = none ∧ f.newPath ≠ none then { f with status := .added }
  else if f.newPath = none ∧ f.oldPath ≠ none then { f with status := .deleted }
  else f

/-- Parser traversal state: finalized files, the current file (whose last
hunk is the current hunk when `inHunk`), and the running line counters. -/
structure ParseState where
  files : List DiffFile
  cur : Option DiffFile
  inHunk : Bool
  oldLine : Nat
  newLine : Nat
deriving Repr

def initParseState : ParseState := ⟨[], none, false, 0, 0⟩

/-- Append a diff line to the current hunk (the last hunk of the current
file). -/
def pushHunkLine (f : DiffFile) (l : DiffLine) : DiffFile :=
  match f.hunks.getLast? with
  | none => f
  | some h => { f with hunks := f.hunks.dropLast ++ [{ h with lines := h.lines ++ [l] }] }

/-- One iteration of the parser's line loop, with the source's dispatch
order preserved exactly. -/
def parseStep (st : ParseState) (line : Str) : ParseState :=
  match matchDiffHeader line with
  | some (a, b) =>
    { files := st.files ++ (st.cur.map ensureStatus).toList
      cur := some ⟨some a, some b, .modified, []⟩
      inHunk := false
      oldLine := st.oldLine
      newLine := st.newLine }
  | none =>
    match st.cur with
    | none => st
    | some f =>
      if "new file mode".toList.isPrefixOf line then
        { st with cur := some { f with status := .added } }
      else if "deleted file mode".toList.isPrefixOf line then
        { st with cur := some { f with status := .deleted } }
      else if "--- ".toList.isPrefixOf line then
        { st with cur := some { f with oldPath := parsePathField "a/" (line.drop 4) } }
      else if "+++ ".toList.isPrefixOf line then
        { st with cur := some { f with newPath := parsePathField "b/" (line.drop 4) } }
      else
        match matchHunkHeader line with
        | some (os, og, ns, ng) =>
          let oldStart := os
          let oldLines := og.getD 1
          let newStart := ns
          let newLines := ng.getD 1
          { files := st.files
            cur := some { f with hunks := f.hunks ++ [⟨line, oldStart, oldLines, newStart, newLines, []⟩] }
            inHunk := true
            oldLine := oldStart
            newLine := newStart }
        | none =>
          if st.inHunk = false then st
          else if "\\ No newline at end of file".toList.isPrefixOf line then st
          else if "+".toList.isPrefixOf line then
            if "+++".toList.isPrefixOf line then st
            else
              { st with
                cur := some (pushHunkLine f ⟨.added, line.drop 1, none, some st.newLine⟩)
                newLine := st.newLine + 1 }
          else if "-".toList.isPrefixOf line then
            if "---".toList.isPrefixOf line then st
            else
              { st with
                cur := some (pushHunkLine f ⟨.removed, line.drop 1, some st.oldLine, none⟩)
                oldLine := st.oldLine + 1 }
          else if " ".toList.isPrefixOf line then
            { st with
              cur := some (pushHunkLine f ⟨.context, line.drop 1, some st.oldLine, some st.newLine⟩)
              oldLine := st.oldLine + 1
              newLine := st.newLine + 1 }
          else st

/-- `parseUnifiedDiff`: normalize line endings, split on LF, run the line
loop, then finalize every file's status. -/
def parseUnifiedDiff (rawDiff : Str) : DiffParseResult :=
  let lines := splitNl (normalizeLineEndings rawDiff)
  let st := lines.foldl parseStep initParseState
  ⟨(st.files ++ st.cur.toList).map ensureStatus⟩

/- ---------------------------------------------------------------- -/
/- Inline change differ (buildInlineDiff)                           -/
/- ---------------------------------------------------------------- -/

structure InlineDiff where
  before : Str
  changed : Str
  after : Str
deriving DecidableEq, Repr

/-- Length of the common head of two strings (the `prefix` loop of the
source, which advances while characters agree). -/
def cplLen : Str → Str → Nat
  | a :: as, b :: bs => if a = b then cplLen as bs + 1 else 0
  | _, _ => 0

/-- `buildInlineDiff(oldText, newText)`.  The second loop of the source
scans from the ends of the strings, bounded by `oldLength - prefix` and
`newLength - prefix` so it never re-consumes head characters; that is the
common head length of the reversed remainders. -/
def buildInlineDiff (oldText newText : Str) : InlineDiff × InlineDiff :=
  if oldText = [] ∧ newText = [] then
    (⟨[], [], []⟩, ⟨[], [], []⟩)
  else
    let p := cplLen oldText newText
    let s := cplLen (oldText.drop p).reverse (newText.drop p).reverse
    (⟨oldText.take p, (oldText.drop p).take (oldText.length - s - p), oldText.drop (oldText.length - s)⟩,
     ⟨newText.take p, (newText.drop p).take (newText.length - s - p), newText.drop (newText.length - s)⟩)

/- ---------------------------------------------------------------- -/
/- Visual rows and connectors (buildVisualRows)                     -/
/- ---------------------------------------------------------------- -/

inductive LeftCell
  | context (line : DiffLine)
  | removed (line : DiffLine)
  | change (line : DiffLine)
  | spacer
deriving DecidableEq, Repr

inductive RightCell
  | context (line : DiffLine) (anchorOldLine : Option Nat)
  | added (line : DiffLine) (anchorOldLine : Option Nat)
  | change (line : DiffLine) (anchorOldLine : Option Nat)
  | spacer
deriving DecidableEq, Repr

structure VisualRow where
  rowId : Str
  left : LeftCell
  right : RightCell
deriving DecidableEq, Repr

inductive ConnectorMeta
  | change (startRowId endRowId : Str)
  | added (startRowId endRowId : Str) (anchorOldLine : Option Nat)
  | removed (startRowId endRowId : Str) (anchorNewLine : Option Nat)
deriving DecidableEq, Repr

def ConnectorMeta.startRowId : ConnectorMeta → Str
  | .change s _ => s
  | .added s _ _ => s
  | .removed s _ _ => s

def ConnectorMeta.endRowId : ConnectorMeta → Str
  | .change _ e => e
  | .added _ e _ => e
  | .removed _ e _ => e

/-- Replace a connector's `endRowId` (the mutation performed when grouping
merges a connector into the previous one). -/
def ConnectorMeta.withEnd : ConnectorMeta → Str → ConnectorMeta
  | .change s _, e => .change s e
  | .added s _ a, e => .added s e a
  | .removed s _ a, e => .removed s e a

def LeftCell.isSpacer : LeftCell → Bool
  | .spacer => true
  | _ => false

def RightCell.isSpacer : RightCell → Bool
  | .spacer => true
  | _ => false

/-- Builder traversal state (`rows`, `connectors`, `lastOldLine`,
`lastNewLine` of the source). -/
structure BuildSt where
  rows : List VisualRow
  connectors : List ConnectorMeta
  lastOldLine : Nat
  lastNewLine : Nat
deriving DecidableEq, Repr

/-- `n || null` on a line-number counter: 0 is falsy. -/
def anchorOf (n : Nat) : Option Nat := if n = 0 then none else some n

def pushContextRow (st : BuildSt) (rowId : Str) (content : Str) (oldN newN : Nat) : BuildSt :=
  let line : DiffLine := ⟨.context, content, some oldN, some newN⟩
  { st with
    rows := st.rows ++ [⟨rowId, .context line, .context line none⟩]
    lastOldLine := oldN
    lastNewLine := newN }

def pushRemovedRow (st : BuildSt) (rowId : Str) (content : Str) (oldN : Nat) : BuildSt :=
  let line : DiffLine := ⟨.removed, content, some oldN, none⟩
  { st with
    rows := st.rows ++ [⟨rowId, .removed line, .spacer⟩]
    connectors := st.connectors ++ [.removed rowId rowId (anchorOf st.lastNewLine)]
    lastOldLine := oldN }

def pushAddedRow (st : BuildSt) (rowId : Str) (content : Str) (newN : Nat) : BuildSt :=
  let line : DiffLine := ⟨.added, content, none, some newN⟩
  { st with
    rows := st.rows ++ [⟨rowId, .spacer, .added line (anchorOf st.lastOldLine)⟩]
    connectors := st.connectors ++ [.added rowId rowId (anchorOf st.lastOldLine)]
    lastNewLine := newN }

/-- `arr[i] ?? ""` for a possibly negative JS index. -/
def listGetDStr (l : List Str) (i : Int) : Str :=
  if i < 0 then [] else l.getD i.toNat []

def gapCtxRowId (o n : Int) : Str :=
  "context-full-".toList ++ intToStr o ++ "-".toList ++ intToStr n

def gapRemovedRowId (o : Int) : Str := "removed-full-".toList ++ intToStr o

def gapAddedRowId (n : Int) : Str := "added-full-".toList ++ intToStr n

/-- One iteration of the `pushGapLines` offset loop. -/
def gapStep (safeOld safeNew : List Str) (oldStartG newStartG oldCount newCount : Int)
    (st : BuildSt) (offset : Nat) : BuildSt :=
  let oldLineNumber : Int := oldStartG + offset
  let newLineNumber : Int := newStartG + offset
  let hasOld := (offset : Int) < oldCount
  let hasNew := (offset : Int) < newCount
  if hasOld ∧ hasNew then
    pushContextRow st (gapCtxRowId oldLineNumber newLineNumber)
      (listGetDStr safeOld (oldLineNumber - 1)) oldLineNumber.toNat newLineNumber.toNat
  else if hasOld then
    pushRemovedRow st (gapRemovedRowId oldLineNumber)
      (listGetDStr safeOld (oldLineNumber - 1)) oldLineNumber.toNat
  else if hasNew then
    pushAddedRow st (gapAddedRowId newLineNumber)
      (listGetDStr safeNew (newLineNumber - 1)) newLineNumber.toNat
  else st

/-- `pushGapLines(oldStart, oldEnd, newStart, newEnd)` of the source. -/
def pushGapLines (safeOld safeNew : List Str) (st : BuildSt)
    (oldStartG oldEndG newStartG newEndG : Int) : BuildSt :=
  if oldEndG < oldStartG ∧ newEndG < newStartG then st
  else
    let oldCount := max 0 (oldEndG - oldStartG + 1)
    let newCount := max 0 (newEndG - newStartG + 1)
    let maxCount := max oldCount newCount
    (List.range maxCount.toNat).foldl
      (gapStep safeOld safeNew oldStartG newStartG oldCount newCount) st

def hunkRowId (tag : String) (hi i : Nat) : Str :=
  tag.toList ++ natToStr hi ++ "-".toList ++ natToStr i

/-- Context line inside a hunk. -/
def hunkCtxStep (hi i : Nat) (l : DiffLine) (st : BuildSt) : BuildSt :=
  { st with
    rows := st.rows ++ [⟨hunkRowId "context-" hi i, .context l, .context l none⟩]
    lastOldLine := l.oldLineNumber.getD st.lastOldLine
    lastNewLine := l.newLineNumber.getD st.lastNewLine }

/-- Paired removed/added lines merged into one change row; `lLeft` is the
removed line shown on the left, `lRight` the added line on the right. -/
def hunkChangeStep (hi i : Nat) (lLeft lRight : DiffLine) (st : BuildSt) : BuildSt :=
  let rowId := hunkRowId "change-" hi i
  { st with
    rows := st.rows ++ [⟨rowId, .change lLeft, .change lRight none⟩]
    connectors := st.connectors ++ [.change rowId rowId]
    lastOldLine := lLeft.oldLineNumber.getD st.lastOldLine
    lastNewLine := lRight.newLineNumber.getD st.lastNewLine }

/-- Unmatched removed line inside a hunk. -/
def hunkRemovedStep (hi i : Nat) (l : DiffLine) (st : BuildSt) : BuildSt :=
  let rowId := hunkRowId "removed-" hi i
  { st with
    rows := st.rows ++ [⟨rowId, .removed l, .spacer⟩]
    connectors := st.connectors ++ [.removed rowId rowId (anchorOf st.lastNewLine)]
    lastOldLine := l.oldLineNumber.getD st.lastOldLine }

/-- Unmatched added line inside a hunk. -/
def hunkAddedStep (hi i : Nat) (l : DiffLine) (st : BuildSt) : BuildSt :=
  let rowId := hunkRowId "added-" hi i
  { st with
    rows := st.rows ++ [⟨rowId, .spacer, .added l (anchorOf st.lastOldLine)⟩]
    connectors := st.connectors ++ [.added rowId rowId (anchorOf st.lastOldLine)]
    lastNewLine := l.newLineNumber.getD st.lastNewLine }

/-- The per-hunk line walk with its one-line lookahead (`next`): a removed
line immediately followed by an added one — or vice versa — is merged into a
change row and both are consumed. -/
def walkHunk (hi : Nat) : Nat → List DiffLine → BuildSt → BuildSt
  | _, [], st => st
  | i, [l], st =>
    if l.type = .context then hunkCtxStep hi i l st
    else if l.type = .removed then hunkRemovedStep hi i l st
    else hunkAddedStep hi i l st
  | i, l :: nxt :: rest, st =>
    if l.type = .context then walkHunk hi (i + 1) (nxt :: rest) (hunkCtxStep hi i l st)
    else if l.type = .removed ∧ nxt.type = .added then
      walkHunk hi (i + 2) rest (hunkChangeStep hi i l nxt st)
    else if l.type = .added ∧ nxt.type = .removed then
      walkHunk hi (i + 2) rest (hunkChangeStep hi i nxt l st)
    else if l.type = .removed then walkHunk hi (i + 1) (nxt :: rest) (hunkRemovedStep hi i l st)
    else walkHunk hi (i + 1) (nxt :: rest) (hunkAddedStep hi i l st)

/-- The `file.hunks.forEach` loop: optional gap before each hunk, then the
hunk walk, threading `nextOldLine`/`nextNewLine`. -/
def processHunks (safeOld safeNew : List Str) (hasFull : Bool) :
    Nat → List DiffHunk → BuildSt × Int × Int → BuildSt × Int × Int
  | _, [], acc => acc
  | hi, h :: rest, (st, nextOld, nextNew) =>
    let st1 :=
      if hasFull then
        pushGapLines safeOld safeNew st nextOld ((h.oldStart : Int) - 1) nextNew ((h.newStart : Int) - 1)
      else st
    let st2 := walkHunk hi 0 h.lines st1
    processHunks safeOld safeNew hasFull (hi + 1) rest
      (st2, (h.oldStart : Int) + h.oldLines, (h.newStart : Int) + h.newLines)

/-- Rows and ungrouped connectors, before the grouping pass. -/
def buildVisualRowsRaw (file : DiffFile) (oldFileLines newFileLines : Option (List Str)) : BuildSt :=
  let hasFullFiles := !(oldFileLines.getD []).isEmpty || !(newFileLines.getD []).isEmpty
  let safeOldLines := oldFileLines.getD []
  let safeNewLines := newFileLines.getD []
  let totalOldLines := safeOldLines.length
  let totalNewLines := safeNewLines.length
  let acc := processHunks safeOldLines safeNewLines hasFullFiles 0 file.hunks (⟨[], [], 0, 0⟩, 1, 1)
  if hasFullFiles then
    pushGapLines safeOldLines safeNewLines acc.1 acc.2.1 totalOldLines acc.2.2 totalNewLines
  else acc.1

/-- The `rowIndexMap` built by `forEach`+`set` maps a rowId to the index of
its last occurrence; `get(...) ?? -1` yields -1 for an absent id. -/
def rowIndexGo (id : Str) : List VisualRow → Int → Int → Int
  | [], _, best => best
  | r :: rest, i, best => rowIndexGo id rest (i + 1) (if r.rowId = id then i else best)

def rowIndexOf (rows : List VisualRow) (id : Str) : Int := rowIndexGo id rows 0 (-1)

/-- The three same-kind merge checks of the grouping pass (run only when
the connectors are consecutive). -/
def mergeTry (last c : ConnectorMeta) : Option ConnectorMeta :=
  match last, c with
  | .change s _, .change _ e' => some (.change s e')
  | .added s _ a, .added _ e' a' => if a' = a then some (.added s e' a) else none
  | .removed s _ a, .removed _ e' a' => if a' = a then some (.removed s e' a) else none
  | _, _ => none

/-- One iteration of the grouping loop over the raw connector list. -/
def groupStep (rows : List VisualRow) (grouped : List ConnectorMeta) (c : ConnectorMeta) :
    List ConnectorMeta :=
  match grouped.getLast? with
  | none => grouped ++ [c]
  | some last =>
    let lastIndex := rowIndexOf rows last.endRowId
    let currentIndex := rowIndexOf rows c.startRowId
    let isConsecutive := currentIndex = lastIndex + 1
    if isConsecutive then
      match mergeTry last c with
      | some m => grouped.dropLast ++ [m]
      | none => grouped ++ [c]
    else grouped ++ [c]

def groupConnectors (rows : List VisualRow) (conns : List ConnectorMeta) : List ConnectorMeta :=
  conns.foldl (groupStep rows) []

structure VisualRowsResult where
  rows : List VisualRow
  connectors : List ConnectorMeta
deriving DecidableEq, Repr

/-- `buildVisualRows(file, oldFileLines?, newFileLines?)`. -/
def buildVisualRows (file : DiffFile) (oldFileLines newFileLines : Option (List Str)) :
    VisualRowsResult :=
  let raw := buildVisualRowsRaw file oldFileLines newFileLines
  ⟨raw.rows, groupConnectors raw.rows raw.connectors⟩

/- ---------------------------------------------------------------- -/
/- Analytical projection: per-side content items, running offsets,  -/
/- and computeOffsets (SideBySideDiff, analytical variant)          -/
/- ---------------------------------------------------------------- -/

structure LeftContentItem where
  rowId : Str
  cell : LeftCell
  rightCell : RightCell
deriving DecidableEq, Repr

structure RightContentItem where
  rowId : Str
  cell : RightCell
  leftCell : LeftCell
deriving DecidableEq, Repr

structure SideDerivation where
  leftContentItems : List LeftContentItem
  rightContentItems : List RightContentItem
  leftRunning : List Nat
  rightRunning : List Nat
deriving DecidableEq, Repr

/-- The derivation loop over the unified rows: running real-row counts are
recorded for every row index before the counts are bumped. -/
def deriveStep (acc : SideDerivation × Nat × Nat) (row : VisualRow) : SideDerivation × Nat × Nat :=
  let d := acc.1
  let lc := acc.2.1
  let rc := acc.2.2
  let d := { d with leftRunning := d.leftRunning ++ [lc], rightRunning := d.rightRunning ++ [rc] }
  let (d, lc) :=
    if row.left.isSpacer = false then
      ({ d with leftContentItems := d.leftContentItems ++ [⟨row.rowId, row.left, row.right⟩] }, lc + 1)
    else (d, lc)
  let (d, rc) :=
    if row.right.isSpacer = false then
      ({ d with rightContentItems := d.rightContentItems ++ [⟨row.rowId, row.right, row.left⟩] }, rc + 1)
    else (d, rc)
  (d, lc, rc)

def deriveSides (rows : List VisualRow) : SideDerivation :=
  (rows.foldl deriveStep (⟨[], [], [], []⟩, 0, 0)).1

def ROW_HEIGHT : ℚ := 24

def dummyRow : VisualRow := ⟨[], .spacer, .spacer⟩

/-- `Math.max(0, Math.min(Math.floor(st / ROW_HEIGHT), rows.length - 1))`. -/
def scrollIdx (rows : List VisualRow) (st : ℚ) : Nat :=
  (max 0 (min ⌊st / ROW_HEIGHT⌋ ((rows.length : Int) - 1))).toNat

/-- `Math.max(0, unifiedRow - idx)`. -/
def scrollFrac (rows : List VisualRow) (st : ℚ) : ℚ :=
  max 0 (st / ROW_HEIGHT - (scrollIdx rows st : ℚ))

/-- `computeOffsets`: the pair (leftScrollY, rightScrollY) for a unified
scroll position, the fractional part applying to a side only when the
scroll row has real content there. -/
def computeOffsets (rows : List VisualRow) (lRun rRun : List Nat) (st : ℚ) : ℚ × ℚ :=
  if rows.length = 0 then (0, 0)
  else
    let idx := scrollIdx rows st
    let frac := scrollFrac rows st
    let lBase := (lRun.getD idx 0 : ℚ) * ROW_HEIGHT
    let rBase := (rRun.getD idx 0 : ℚ) * ROW_HEIGHT
    (lBase + (if (rows.getD idx dummyRow).left.isSpacer = false then frac * ROW_HEIGHT else 0),
     rBase + (if (rows.getD idx dummyRow).right.isSpacer = false then frac * ROW_HEIGHT else 0))

/- ---------------------------------------------------------------- -/
/- Layout-measured variant: buildColumns                            -/
/- ---------------------------------------------------------------- -/

inductive LeftKind
  | context
  | removed
  | change
deriving DecidableEq, Repr

inductive RightKind
  | context
  | added
  | change
deriving DecidableEq, Repr

structure LeftItem where
  rowId : Str
  line : DiffLine
  kind : LeftKind
deriving DecidableEq, Repr

structure RightItem where
  rowId : Str
  line : DiffLine
  kind : RightKind
  anchorOldLine : Option Nat
deriving DecidableEq, Repr

structure ColsSt where
  leftItems : List LeftItem
  rightItems : List RightItem
  connectors : List ConnectorMeta
  lastOldLine : Nat
  lastNewLine : Nat
deriving DecidableEq, Repr

def colsPushContextRow (st : ColsSt) (rowId : Str) (content : Str) (oldN newN : Nat) : ColsSt :=
  let line : DiffLine := ⟨.context, content, some oldN, some newN⟩
  { st with
    leftItems := st.leftItems ++ [⟨rowId, line, .context⟩]
    rightItems := st.rightItems ++ [⟨rowId, line, .context, none⟩]
    lastOldLine := oldN
    lastNewLine := newN }

def colsPushRemovedRow (st : ColsSt) (rowId : Str) (content : Str) (oldN : Nat) : ColsSt :=
  let line : DiffLine := ⟨.removed, content, some oldN, none⟩
  { st with
    leftItems := st.leftItems ++ [⟨rowId, line, .removed⟩]
    connectors := st.connectors ++ [.removed rowId rowId (anchorOf st.lastNewLine)]
    lastOldLine := oldN }

def colsPushAddedRow (st : ColsSt) (rowId : Str) (content : Str) (newN : Nat) : ColsSt :=
  let line : DiffLine := ⟨.added, content, none, some newN⟩
  { st with
    rightItems := st.rightItems ++ [⟨rowId, line, .added, anchorOf st.lastOldLine⟩]
    connectors := st.connectors ++ [.added rowId rowId (anchorOf st.lastOldLine)]
    lastNewLine := newN }

def colsGapStep (safeOld safeNew : List Str) (oldStartG newStartG oldCount newCount : Int)
    (st : ColsSt) (offset : Nat) : ColsSt :=
  let oldLineNumber : Int := oldStartG + offset
  let newLineNumber : Int := newStartG + offset
  let hasOld := (offset : Int) < oldCount
  let hasNew := (offset : Int) < newCount
  if hasOld ∧ hasNew then
    colsPushContextRow st (gapCtxRowId oldLineNumber newLineNumber)
      (listGetDStr safeOld (oldLineNumber - 1)) oldLineNumber.toNat newLineNumber.toNat
  else if hasOld then
    colsPushRemovedRow st (gapRemovedRowId oldLineNumber)
      (listGetDStr safeOld (oldLineNumber - 1)) oldLineNumber.toNat
  else if hasNew then
    colsPushAddedRow st (gapAddedRowId newLineNumber)
      (listGetDStr safeNew (newLineNumber - 1)) newLineNumber.toNat
  else st

def colsPushGapLines (safeOld safeNew : List Str) (st : ColsSt)
    (oldStartG oldEndG newStartG newEndG : Int) : ColsSt :=
  if oldEndG < oldStartG ∧ newEndG < newStartG then st
  else
    let oldCount := max 0 (oldEndG - oldStartG + 1)
    let newCount := max 0 (newEndG - newStartG + 1)
    let maxCount := max oldCount newCount
    (List.range maxCount.toNat).foldl
      (colsGapStep safeOld safeNew oldStartG newStartG oldCount newCount) st

def colsCtxStep (hi i : Nat) (l : DiffLine) (st : ColsSt) : ColsSt :=
  { st with
    leftItems := st.leftItems ++ [⟨hunkRowId "context-" hi i, l, .context⟩]
    rightItems := st.rightItems ++ [⟨hunkRowId "context-" hi i, l, .context, none⟩]
    lastOldLine := l.oldLineNumber.getD st.lastOldLine
    lastNewLine := l.newLineNumber.getD st.lastNewLine }

def colsChangeStep (hi i : Nat) (lLeft lRight : DiffLine) (st : ColsSt) : ColsSt :=
  let rowId := hunkRowId "change-" hi i
  { st with
    leftItems := st.leftItems ++ [⟨rowId, lLeft, .change⟩]
    rightItems := st.rightItems ++ [⟨rowId, lRight, .change, none⟩]
    connectors := st.connectors ++ [.change rowId rowId]
    lastOldLine := lLeft.oldLineNumber.getD st.lastOldLine
    lastNewLine := lRight.newLineNumber.getD st.lastNewLine }

def colsRemovedStep (hi i : Nat) (l : DiffLine) (st : ColsSt) : ColsSt :=
  let rowId := hunkRowId "removed-" hi i
  { st with
    leftItems := st.leftItems ++ [⟨rowId, l, .removed⟩]
    connectors := st.connectors ++ [.removed rowId rowId (anchorOf st.lastNewLine)]
    lastOldLine := l.oldLineNumber.getD st.lastOldLine }

def colsAddedStep (hi i : Nat) (l : DiffLine) (st : ColsSt) : ColsSt :=
  let rowId := hunkRowId "added-" hi i
  { st with
    rightItems := st.rightItems ++ [⟨rowId, l, .added, anchorOf st.lastOldLine⟩]
    connectors := st.connectors ++ [.added rowId rowId (anchorOf st.lastOldLine)]
    lastNewLine := l.newLineNumber.getD st.lastNewLine }

def colsWalkHunk (hi : Nat) : Nat → List DiffLine → ColsSt → ColsSt
  | _, [], st => st
  | i, [l], st =>
    if l.type = .context then colsCtxStep hi i l st
    else if l.type = .removed then colsRemovedStep hi i l st
    else colsAddedStep hi i l st
  | i, l :: nxt :: rest, st =>
    if l.type = .context then colsWalkHunk hi (i + 1) (nxt :: rest) (colsCtxStep hi i l st)
    else if l.type = .removed ∧ nxt.type = .added then
      colsWalkHunk hi (i + 2) rest (colsChangeStep hi i l nxt st)
    else if l.type = .added ∧ nxt.type = .removed then
      colsWalkHunk hi (i + 2) rest (colsChangeStep hi i nxt l st)
    else if l.type = .removed then colsWalkHunk hi (i + 1) (nxt :: rest) (colsRemovedStep hi i l st)
    else colsWalkHunk hi (i + 1) (nxt :: rest) (colsAddedStep hi i l st)

def colsProcessHunks (safeOld safeNew : List Str) (hasFull : Bool) :
    Nat → List DiffHunk → ColsSt × Int × Int → ColsSt × Int × Int
  | _, [], acc => acc
  | hi, h :: rest, (st, nextOld, nextNew) =>
    let st1 :=
      if hasFull then
        colsPushGapLines safeOld safeNew st nextOld ((h.oldStart : Int) - 1) nextNew ((h.newStart : Int) - 1)
      else st
    let st2 := colsWalkHunk hi 0 h.lines st1
    colsProcessHunks safeOld safeNew hasFull (hi + 1) rest
      (st2, (h.oldStart : Int) + h.oldLines, (h.newStart : Int) + h.newLines)

def buildColumnsRaw (file : DiffFile) (oldFileLines newFileLines : Option (List Str)) : ColsSt :=
  let hasFullFiles := !(oldFileLines.getD []).isEmpty || !(newFileLines.getD []).isEmpty
  let safeOldLines := oldFileLines.getD []
  let safeNewLines := newFileLines.getD []
  let totalOldLines := safeOldLines.length
  let totalNewLines := safeNewLines.length
  let acc := colsProcessHunks safeOldLines safeNewLines hasFullFiles 0 file.hunks (⟨[], [], [], 0, 0⟩, 1, 1)
  if hasFullFiles then
    colsPushGapLines safeOldLines safeNewLines acc.1 acc.2.1 totalOldLines acc.2.2 totalNewLines
  else acc.1

/-- `leftIndexMap` of `buildColumns` (last occurrence wins, -1 if absent). -/
def leftIndexGo (id : Str) : List LeftItem → Int → Int → Int
  | [], _, best => best
  | r :: rest, i, best => leftIndexGo id rest (i + 1) (if r.rowId = id then i else best)

def leftIndexOf (items : List LeftItem) (id : Str) : Int := leftIndexGo id items 0 (-1)

def rightIndexGo (id : Str) : List RightItem → Int → Int → Int
  | [], _, best => best
  | r :: rest, i, best => rightIndexGo id rest (i + 1) (if r.rowId = id then i else best)

def rightIndexOf (items : List RightItem) (id : Str) : Int := rightIndexGo id items 0 (-1)

/-- Whether the grouping pass of `buildColumns` consults the left index map
for this pair (`connector.type === "removed" || last.type === "removed"`). -/
def ConnectorMeta.isRemovedKind : ConnectorMeta → Bool
  | .removed _ _ _ => true
  | _ => false

/-- One iteration of `buildColumns`' grouping loop: consecutiveness is
judged in the left item list when either connector is of removed kind, in
the right item list otherwise. -/
def colsGroupStep (lItems : List LeftItem) (rItems : List RightItem)
    (grouped : List ConnectorMeta) (c : ConnectorMeta) : List ConnectorMeta :=
  match grouped.getLast? with
  | none => grouped ++ [c]
  | some last =>
    let useLeft := c.isRemovedKind || last.isRemovedKind
    let lastIndex := if useLeft then leftIndexOf lItems last.endRowId else rightIndexOf rItems last.endRowId
    let currentIndex := if useLeft then leftIndexOf lItems c.startRowId else rightIndexOf rItems c.startRowId
    let isConsecutive := currentIndex = lastIndex + 1
    if isConsecutive then
      match mergeTry last c with
      | some m => grouped.dropLast ++ [m]
      | none => grouped ++ [c]
    else grouped ++ [c]

structure ColumnsResult where
  leftItems : List LeftItem
  rightItems : List RightItem
  connectors : List ConnectorMeta
deriving DecidableEq, Repr

/-- `buildColumns(file, oldFileLines?, newFileLines?)`. -/
def buildColumns (file : DiffFile) (oldFileLines newFileLines : Option (List Str)) :
    ColumnsResult :=
  let raw := buildColumnsRaw file oldFileLines newFileLines
  ⟨raw.leftItems, raw.rightItems,
   raw.connectors.foldl (colsGroupStep raw.leftItems raw.rightItems) []⟩

/- ---------------------------------------------------------------- -/
/- Claim-level definitions                                          -/
/- ---------------------------------------------------------------- -/

def dummyLine : DiffLine := ⟨.context, [], none, none⟩

/-- Number of hunk lines present on the old side (context or removed). -/
def sideCountOld (ls : List DiffLine) : Nat :=
  ls.countP fun l =>
    match l.type with
    | .context => true
    | .removed => true
    | .added => false

/-- Number of hunk lines present on the new side (context or added). -/
def sideCountNew (ls : List DiffLine) : Nat :=
  ls.countP fun l =>
    match l.type with
    | .context => true
    | .removed => false
    | .added => true

/-- The per-side running counters of the parser, as a predicate over a
hunk's line list: each line carries exactly the numbers the counters held
when it was pushed. -/
def linesNumbered : Nat → Nat → List DiffLine → Prop
  | _, _, [] => True
  | o, n, l :: rest =>
    match l.type with
    | .added => l.oldLineNumber = none ∧ l.newLineNumber = some n ∧ linesNumbered o (n + 1) rest
    | .removed => l.newLineNumber = none ∧ l.oldLineNumber = some o ∧ linesNumbered (o + 1) n rest
    | .context =>
      l.oldLineNumber = some o ∧ l.newLineNumber = some n ∧ linesNumbered (o + 1) (n + 1) rest

/-- C5's property at one line of a hunk, phrased with running counts over
the preceding lines. -/
def lineNumberProp (h : DiffHunk) (i : Nat) : Prop :=
  let l := h.lines.getD i dummyLine
  (l.type = .added →
      l.oldLineNumber = none ∧ l.newLineNumber = some (h.newStart + sideCountNew (h.lines.take i)))
  ∧ (l.type = .removed →
      l.newLineNumber = none ∧ l.oldLineNumber = some (h.oldStart + sideCountOld (h.lines.take i)))
  ∧ (l.type = .context →
      l.oldLineNumber = some (h.oldStart + sideCountOld (h.lines.take i))
        ∧ l.newLineNumber = some (h.newStart + sideCountNew (h.lines.take i)))

/-- No diff line content contains a carriage return. -/
def lineNoCr (l : DiffLine) : Bool := l.content.all fun c => c ≠ '\r'

def resultNoCr (r : DiffParseResult) : Bool :=
  r.files.all fun f => f.hunks.all fun h => h.lines.all lineNoCr

/-- `new file mode` / `deleted file mode` never occurs in the input. -/
def noModeLines (s : Str) : Prop :=
  ∀ l ∈ splitNl (normalizeLineEndings s),
    "new file mode".toList.isPrefixOf l = false ∧ "deleted file mode".toList.isPrefixOf l = false

/-- Count of rows with real (non-spacer) left content. -/
def leftCount (rows : List VisualRow) : Nat := rows.countP fun r => !r.left.isSpacer

def rightCount (rows : List VisualRow) : Nat := rows.countP fun r => !r.right.isSpacer

/-- Well-formedness of a hunk list against full file lengths `M`, `N`:
hunks are in increasing order and non-overlapping (each starts no earlier
than the previous end), stay within the file bounds, and each hunk's
header counts tally its removed-plus-context and added-plus-context
lines.  `no`/`nn` are the running next-line positions (starting at 1). -/
def hunksWF (M N : Nat) : Int → Int → List DiffHunk → Prop
  | no, nn, [] => no ≤ M + 1 ∧ nn ≤ N + 1
  | no, nn, h :: rest =>
    no ≤ (h.oldStart : Int) ∧ nn ≤ (h.newStart : Int)
    ∧ sideCountOld h.lines = h.oldLines ∧ sideCountNew h.lines = h.newLines
    ∧ hunksWF M N ((h.oldStart : Int) + h.oldLines) ((h.newStart : Int) + h.newLines) rest

/-- Every gap (between hunks, and the trailing one) spans equally many old
and new lines. -/
def gapsBalanced (M N : Nat) : Int → Int → List DiffHunk → Prop
  | no, nn, [] => (M : Int) - no = (N : Int) - nn
  | no, nn, h :: rest =>
    (h.oldStart : Int) - no = (h.newStart : Int) - nn
    ∧ gapsBalanced M N ((h.oldStart : Int) + h.oldLines) ((h.newStart : Int) + h.newLines) rest

def LeftCell.isContext : LeftCell → Bool
  | .context _ => true
  | _ => false

def RightCell.isContext : RightCell → Bool
  | .context _ _ => true
  | _ => false

/-- Row identifiers produced by `pushGapLines` (gap rows). -/
def isGapRowId (id : Str) : Bool :=
  "context-full-".toList.isPrefixOf id || "removed-full-".toList.isPrefixOf id
    || "added-full-".toList.isPrefixOf id

/-- The non-spacer left cells of a unified row list, in `buildColumns`'
item shape. -/
def leftProj (rows : List VisualRow) : List LeftItem :=
  rows.filterMap fun r =>
    match r.left with
    | .context l => some ⟨r.rowId, l, .context⟩
    | .removed l => some ⟨r.rowId, l, .removed⟩
    | .change l => some ⟨r.rowId, l, .change⟩
    | .spacer => none

def rightProj (rows : List VisualRow) : List RightItem :=
  rows.filterMap fun r =>
    match r.right with
    | .context l a => some ⟨r.rowId, l, .context, a⟩
    | .added l a => some ⟨r.rowId, l, .added, a⟩
    | .change l a => some ⟨r.rowId, l, .change, a⟩
    | .spacer => none

/-- Analytical visual position of row `j` on the left side at scroll `st`:
running real-row offset times the fixed row height, minus the left scroll
offset. -/
def visualPosLeft (rows : List VisualRow) (lRun rRun : List Nat) (j : Nat) (st : ℚ) : ℚ :=
  (lRun.getD j 0 : ℚ) * ROW_HEIGHT - (computeOffsets rows lRun rRun st).1

def visualPosRight (rows : List VisualRow) (lRun rRun : List Nat) (j : Nat) (st : ℚ) : ℚ :=
  (rRun.getD j 0 : ℚ) * ROW_HEIGHT - (computeOffsets rows lRun rRun st).2

def connTag : ConnectorMeta → Nat
  | .change _ _ => 0
  | .added _ _ _ => 1
  | .removed _ _ _ => 2

def connAnchor : ConnectorMeta → Option Nat
  | .change _ _ => none
  | .added _ _ a => a
  | .removed _ _ a => a

/-- The grouping pass's merge condition between a prior connector and the
current one: row indices consecutive (last occurrence, -1 when absent),
same kind, and — for added/removed — identical anchor. -/
def connAdjacentB (rows : List VisualRow) (prev c : ConnectorMeta) : Bool :=
  decide (rowIndexOf rows c.startRowId = rowIndexOf rows prev.endRowId + 1)
    && (mergeTry prev c).isSome

/-- Tail-recursive restatement of the grouping loop, carrying the chunk
being merged. -/
def groupRec (rows : List VisualRow) : Option ConnectorMeta → List ConnectorMeta → List ConnectorMeta
  | none, [] => []
  | some t, [] => [t]
  | none, c :: rest => groupRec rows (some c) rest
  | some t, c :: rest =>
    if connAdjacentB rows t c then groupRec rows (some (t.withEnd c.endRowId)) rest
    else t :: groupRec rows (some c) rest

/-- Split a list into maximal runs of elements linked pairwise by `R`. -/
def chunkBy (R : ConnectorMeta → ConnectorMeta → Bool) : List ConnectorMeta → List (List ConnectorMeta)
  | [] => []
  | [a] => [[a]]
  | a :: b :: rest =>
    match chunkBy R (b :: rest) with
    | [] => [[a]]
    | ch :: chs => if R a b then (a :: ch) :: chs else [a] :: ch :: chs

def defaultConn : ConnectorMeta := .change [] []

/-- Collapse one run into a single connector: the first element, its end
replaced by the last element's end. -/
def mergeChunk (ch : List ConnectorMeta) : ConnectorMeta :=
  (ch.headD defaultConn).withEnd (ch.getLastD defaultConn).endRowId

/-- A run of consecutive added lines, numbered from `i+1`. -/
def addedLines : Nat → Nat → List DiffLine
  | _, 0 => []
  | i, m + 1 => ⟨.added, [], none, some (i + 1)⟩ :: addedLines (i + 1) m

/-- A file whose only hunk is a run of `N` added lines. -/
def pureAddedFile (N : Nat) : DiffFile :=
  ⟨some "f".toList, some "f".toList, .modified, [⟨"@@".toList, 1, 0, 1, N, addedLines 0 N⟩]⟩

/-- The added-only hunk walk, with the lookahead already resolved. -/
def addedWalkSpec (hi : Nat) : Nat → List DiffLine → BuildSt → BuildSt
  | _, [], st => st
  | i, l :: rest, st => addedWalkSpec hi (i + 1) rest (hunkAddedStep hi i l st)

/-- Expected rows of an added-only run starting at intra-hunk index `i`. -/
def addedRowsFrom (hi : Nat) (lastOld : Nat) : Nat → List DiffLine → List VisualRow
  | _, [] => []
  | i, l :: rest =>
    ⟨hunkRowId "added-" hi i, .spacer, .added l (anchorOf lastOld)⟩
      :: addedRowsFrom hi lastOld (i + 1) rest

def addedConnsFrom (hi : Nat) (lastOld : Nat) : Nat → List DiffLine → List ConnectorMeta
  | _, [] => []
  | i, _ :: rest =>
    .added (hunkRowId "added-" hi i) (hunkRowId "added-" hi i) (anchorOf lastOld)
      :: addedConnsFrom hi lastOld (i + 1) rest

/- Concrete inputs used by counterexamples and witnesses. -/

/-- A hunk that begins with an unmatched added line: the left pane has a
spacer in row 0. -/
def alignCexFile : DiffFile :=
  ⟨some "a".toList, some "a".toList, .modified,
   [⟨"@@ -1,1 +1,2 @@".toList, 1, 1, 1, 2,
     [⟨.added, "x".toList, none, some 1⟩,
      ⟨.context, "a".toList, some 1, some 2⟩]⟩]⟩

/-- Pathological hunk list whose rewinding gaps emit duplicate gap row ids;
the two builders' grouping passes then disagree. -/
def colsCexFile : DiffFile :=
  ⟨some "f".toList, some "f".toList, .modified,
   [⟨"h1".toList, 4, 0, 1, 0, []⟩,
    ⟨"h2".toList, 2, 0, 1, 0, []⟩,
    ⟨"h3".toList, 3, 0, 1, 1, [⟨.added, "n1".toList, none, some 1⟩]⟩,
    ⟨"h4".toList, 4, 0, 2, 0, []⟩]⟩

def colsCexOld : List Str := ["o1".toList, "o2".toList, "o3".toList]

def colsCexNew : List Str := ["n1".toList]

/-- A hunk whose leading gap covers two old lines but only one new line. -/
def gapCexFile : DiffFile :=
  ⟨some "a".toList, some "a".toList, .modified, [⟨"@@ -3,0 +2,0 @@".toList, 3, 0, 2, 0, []⟩]⟩

/- Proof-support predicates (invariants and relations). -/

def hunkNumbered (h : DiffHunk) : Prop := linesNumbered h.oldStart h.newStart h.lines

def fileNumbered (f : DiffFile) : Prop := ∀ h ∈ f.hunks, hunkNumbered h

/-- Parser invariant for the line-number claim: every recorded hunk is
correctly numbered, and while inside a hunk the counters sit exactly past
the lines already pushed into the current (last) hunk. -/
def numInv (st : ParseState) : Prop :=
  (∀ f ∈ st.files ++ st.cur.toList, fileNumbered f)
    ∧ (st.inHunk = true →
        ∃ f h, st.cur = some f ∧ f.hunks.getLast? = some h
          ∧ st.oldLine = h.oldStart + sideCountOld h.lines
          ∧ st.newLine = h.newStart + sideCountNew h.lines)

/-- A finalized file's status is "modified" unless one of the two
path-driven overrides produced it. -/
def preStatus (f : DiffFile) : Prop :=
  f.status = .modified ∨ (f.oldPath = none ∧ f.newPath ≠ none ∧ f.status = .added)
    ∨ (f.newPath = none ∧ f.oldPath ≠ none ∧ f.status = .deleted)

/-- Parser invariant when the input has no mode lines. -/
def modInv (st : ParseState) : Prop :=
  (∀ f ∈ st.files, preStatus f) ∧ (∀ f ∈ st.cur.toList, f.status = .modified)

/-- Parser invariant for the carriage-return claim. -/
def stNoCr (st : ParseState) : Prop :=
  ∀ f ∈ st.files ++ st.cur.toList, ∀ h ∈ f.hunks, ∀ l ∈ h.lines, lineNoCr l = true

/-- Correspondence between the two builders' traversal states. -/
def colsRel (b : BuildSt) (c : ColsSt) : Prop :=
  c.leftItems = leftProj b.rows ∧ c.rightItems = rightProj b.rows
    ∧ c.connectors = b.connectors ∧ c.lastOldLine = b.lastOldLine
    ∧ c.lastNewLine = b.lastNewLine

/-- Two connectors agreeing on endRowId, kind, and anchor — everything the
grouping pass's merge decision reads from its first argument. -/
def sameTEA (t u : ConnectorMeta) : Prop :=
  t.endRowId = u.endRowId ∧ connTag t = connTag u ∧ connAnchor t = connAnchor u

def gapRowOk (r : VisualRow) : Prop :=
  isGapRowId r.rowId = true → r.left.isContext = true ∧ r.right.isContext = true

def gapConnOk (c : ConnectorMeta) : Prop := isGapRowId c.startRowId = false

/-- Builder invariant for the balanced-gap claim. -/
def gapInv (st : BuildSt) : Prop :=
  (∀ r ∈ st.rows, gapRowOk r) ∧ (∀ c ∈ st.connectors, gapConnOk c)

/- ---------------------------------------------------------------- -/
/- Theorems                                                         -/
/- ---------------------------------------------------------------- -/

/-- C10: for every DiffFile, empty full-file arrays behave exactly like
absent ones — both builders produce identical output in the two modes,
since `hasFullFiles` is false either way. -/
theorem emptyFullFilesAsAbsent (f : DiffFile) :
    buildVisualRows f (some []) (some []) = buildVisualRows f none none
      ∧ buildColumns f (some []) (some []) = buildColumns f none none :=
  ⟨rfl, rfl⟩

theorem cplLen_le_left (a b : Str) : cplLen a b ≤ a.length := by
  induction a, b using cplLen.induct with
  | case1 as b bs ih => simpa [cplLen] using Nat.succ_le_succ ih
  | case2 a as b bs hne => simp [cplLen, hne]
  | case3 t x h =>
    cases t with
    | nil => simp [cplLen]
    | cons a as =>
      cases x with
      | nil => simp [cplLen]
      | cons b bs => exact (h a as b bs rfl rfl).elim

theorem cplLen_le_right (a b : Str) : cplLen a b ≤ b.length := by
  induction a, b using cplLen.induct with
  | case1 as b bs ih => simpa [cplLen] using Nat.succ_le_succ ih
  | case2 a as b bs hne => simp [cplLen, hne]
  | case3 t x h =>
    cases t with
    | nil => simp [cplLen]
    | cons a as =>
      cases x with
      | nil => simp [cplLen]
      | cons b bs => exact (h a as b bs rfl rfl).elim

theorem take_cplLen (a b : Str) : a.take (cplLen a b) = b.take (cplLen a b) := by
  induction a, b using cplLen.induct with
  | case1 as b bs ih => simpa [cplLen] using ih
  | case2 a as b bs hne => simp [cplLen, hne]
  | case3 t x h =>
    cases t with
    | nil => simp [cplLen]
    | cons a as =>
      cases x with
      | nil => simp [cplLen]
      | cons b bs => exact (h a as b bs rfl rfl).elim

theorem cplLen_max (p : Str) : ∀ a b : Str,
    p.isPrefixOf a = true → p.isPrefixOf b = true → p.length ≤ cplLen a b := by
  induction p with
  | nil => intro a b _ _; simp
  | cons c cs ih =>
    intro a b ha hb
    cases a with
    | nil => simp [List.isPrefixOf] at ha
    | cons a1 as =>
      cases b with
      | nil => simp [List.isPrefixOf] at hb
      | cons b1 bs =>
        simp only [List.isPrefixOf, Bool.and_eq_true, beq_iff_eq] at ha hb
        obtain ⟨rfl, ha2⟩ := ha
        obtain ⟨hb1, hb2⟩ := hb
        subst hb1
        simpa [cplLen] using Nat.succ_le_succ (ih as bs ha2 hb2)

/-- `buildInlineDiff` always equals its slice formula; the explicit
both-empty branch of the source coincides with it. -/
theorem buildInlineDiff_eq (oldText newText : Str) :
    buildInlineDiff oldText newText =
      (⟨oldText.take (cplLen oldText newText),
        (oldText.drop (cplLen oldText newText)).take
          (oldText.length - cplLen (oldText.drop (cplLen oldText newText)).reverse
              (newText.drop (cplLen oldText newText)).reverse - cplLen oldText newText),
        oldText.drop
          (oldText.length - cplLen (oldText.drop (cplLen oldText newText)).reverse
              (newText.drop (cplLen oldText newText)).reverse)⟩,
       ⟨newText.take (cplLen oldText newText),
        (newText.drop (cplLen oldText newText)).take
          (newText.length - cplLen (oldText.drop (cplLen oldText newText)).reverse
              (newText.drop (cplLen oldText newText)).reverse - cplLen oldText newText),
        newText.drop
          (newText.length - cplLen (oldText.drop (cplLen oldText newText)).reverse
              (newText.drop (cplLen oldText newText)).reverse)⟩) := by
  unfold buildInlineDiff
  split
  · rename_i hemp
    obtain ⟨h1, h2⟩ := hemp
    subst h1; subst h2
    rfl
  · rfl

/-- C6: buildInlineDiff returns, for any two strings, a shared `before`
equal to the longest common head of the inputs, a shared `after` equal to
the longest common tail of the remainders after the head is removed (the
tail search never re-consumes head characters), with
before ++ changed ++ after reassembling each input; both-empty inputs give
all-empty fields, and the spec's example 3 evaluates as stated. -/
theorem inlineDiffSpec :
    (∀ oldText newText : Str,
      ((buildInlineDiff oldText newText).1.before = (buildInlineDiff oldText newText).2.before
        ∧ (buildInlineDiff oldText newText).1.before.isPrefixOf oldText = true
        ∧ (buildInlineDiff oldText newText).1.before.isPrefixOf newText = true
        ∧ (∀ q : Str, q.isPrefixOf oldText = true → q.isPrefixOf newText = true →
            q.length ≤ (buildInlineDiff oldText newText).1.before.length))
      ∧ ((buildInlineDiff oldText newText).1.after = (buildInlineDiff oldText newText).2.after
        ∧ (buildInlineDiff oldText newText).1.after.isSuffixOf
            (oldText.drop (buildInlineDiff oldText newText).1.before.length) = true
        ∧ (buildInlineDiff oldText newText).1.after.isSuffixOf
            (newText.drop (buildInlineDiff oldText newText).1.before.length) = true
        ∧ (∀ t : Str,
            t.isSuffixOf (oldText.drop (buildInlineDiff oldText newText).1.before.length) = true →
            t.isSuffixOf (newText.drop (buildInlineDiff oldText newText).1.before.length) = true →
            t.length ≤ (buildInlineDiff oldText newText).1.after.length))
      ∧ (buildInlineDiff oldText newText).1.before ++ (buildInlineDiff oldText newText).1.changed
          ++ (buildInlineDiff oldText newText).1.after = oldText
      ∧ (buildInlineDiff oldText newText).2.before ++ (buildInlineDiff oldText newText).2.changed
          ++ (buildInlineDiff oldText newText).2.after = newText
      ∧ (oldText = [] ∧ newText = [] →
          buildInlineDiff oldText newText = (⟨[], [], []⟩, ⟨[], [], []⟩)))
    ∧ buildInlineDiff "const beta = 2;".toList "const beta = 3;".toList =
        (⟨"const beta = ".toList, "2".toList, ";".toList⟩,
         ⟨"const beta = ".toList, "3".toList, ";".toList⟩) := by
  constructor
  · intro oldText newText
    rw [buildInlineDiff_eq]
    set p := cplLen oldText newText with hp
    set s := cplLen (oldText.drop p).reverse (newText.drop p).reverse with hs
    simp only
    have hp_o : p ≤ oldText.length := cplLen_le_left _ _
    have hp_n : p ≤ newText.length := cplLen_le_right _ _
    have hs_o : s ≤ oldText.length - p := by
      simpa using cplLen_le_left (oldText.drop p).reverse (newText.drop p).reverse
    have hs_n : s ≤ newText.length - p := by
      simpa using cplLen_le_right (oldText.drop p).reverse (newText.drop p).reverse
    have htk : oldText.take p = newText.take p := take_cplLen _ _
    have hlen_before : (oldText.take p).length = p := by
      simp [List.length_take, Nat.min_eq_left hp_o]
    -- after as a drop of the remainder
    have hdrop_o : oldText.drop (oldText.length - s) = (oldText.drop p).drop (oldText.length - s - p) := by
      rw [List.drop_drop]
      congr 1
      omega
    have hdrop_n : newText.drop (newText.length - s) = (newText.drop p).drop (newText.length - s - p) := by
      rw [List.drop_drop]
      congr 1
      omega
    -- after via reversed remainders
    have hrev_o : oldText.drop (oldText.length - s) = ((oldText.drop p).reverse.take s).reverse := by
      rw [List.take_reverse, List.reverse_reverse, List.drop_drop, hdrop_o, List.drop_drop]
      congr 1
      simp [List.length_drop]
      omega
    have hrev_n : newText.drop (newText.length - s) = ((newText.drop p).reverse.take s).reverse := by
      rw [List.take_reverse, List.reverse_reverse, List.drop_drop, hdrop_n, List.drop_drop]
      congr 1
      simp [List.length_drop]
      omega
    have hafter_eq : oldText.drop (oldText.length - s) = newText.drop (newText.length - s) := by
      rw [hrev_o, hrev_n, take_cplLen (oldText.drop p).reverse (newText.drop p).reverse]
    have hlen_after : (oldText.drop (oldText.length - s)).length = s := by
      simp [List.length_drop]
      omega
    refine ⟨⟨htk, ?_, ?_, ?_⟩, ⟨hafter_eq, ?_, ?_, ?_⟩, ?_, ?_, ?_⟩
    · exact List.isPrefixOf_iff_prefix.mpr (List.take_prefix p oldText)
    · rw [htk]; exact List.isPrefixOf_iff_prefix.mpr (List.take_prefix p newText)
    · intro q hqo hqn
      rw [hlen_before]
      exact cplLen_max q oldText newText hqo hqn
    · rw [hlen_before, hdrop_o]
      exact List.isSuffixOf_iff_suffix.mpr (List.drop_suffix _ _)
    · rw [hlen_before, hafter_eq, hdrop_n]
      exact List.isSuffixOf_iff_suffix.mpr (List.drop_suffix _ _)
    · intro t hto htn
      rw [hlen_before] at hto htn
      rw [hlen_after]
      have h1 : t.reverse.isPrefixOf (oldText.drop p).reverse = true :=
        List.isPrefixOf_iff_prefix.mpr
          (List.reverse_prefix.mpr (List.isSuffixOf_iff_suffix.mp hto))
      have h2 : t.reverse.isPrefixOf (newText.drop p).reverse = true :=
        List.isPrefixOf_iff_prefix.mpr
          (List.reverse_prefix.mpr (List.isSuffixOf_iff_suffix.mp htn))
      have := cplLen_max t.reverse _ _ h1 h2
      simpa using this
    · rw [hdrop_o, List.append_assoc, List.take_append_drop]
      exact List.take_append_drop p oldText
    · rw [hdrop_n, List.append_assoc, List.take_append_drop]
      exact List.take_append_drop p newText
    · intro hemp
      obtain ⟨h1, h2⟩ := hemp
      subst h1; subst h2
      simp
  · decide

/-- Witness for C6: the inline-diff spec applied at concrete inputs, with
the maximality hypothesis discharged at a concrete common head. -/
theorem inlineDiffSpec_witness :
    ("c".toList).length ≤ (buildInlineDiff "cat".toList "cut".toList).1.before.length :=
  ((inlineDiffSpec.1 "cat".toList "cut".toList).1.2.2.2) "c".toList (by decide) (by decide)

theorem norm_cons_ne (c : Char) (rest : Str) (h : c ≠ '\r') :
    normalizeLineEndings (c :: rest) = c :: normalizeLineEndings rest :=
  normalizeLineEndings.eq_4 c rest (fun _ hc _ => h hc) (fun hc => h hc)

theorem norm_no_cr (s : Str) : ∀ c ∈ normalizeLineEndings s, c ≠ '\r' := by
  induction s using normalizeLineEndings.induct with
  | case1 => simp [normalizeLineEndings]
  | case2 rest ih =>
    intro c hc
    simp only [normalizeLineEndings, List.mem_cons] at hc
    rcases hc with rfl | hc
    · decide
    · exact ih c hc
  | case3 rest hne ih =>
    intro c hc
    simp only [normalizeLineEndings, List.mem_cons] at hc
    rcases hc with rfl | hc
    · decide
    · exact ih c hc
  | case4 c rest hne1 hne2 ih =>
    intro c' hc
    rw [norm_cons_ne c rest fun hh => hne2 hh] at hc
    rcases List.mem_cons.mp hc with rfl | hc
    · exact fun hh => hne2 hh
    · exact ih c' hc

theorem norm_of_no_cr (s : Str) (h : ∀ c ∈ s, c ≠ '\r') : normalizeLineEndings s = s := by
  induction s using normalizeLineEndings.induct with
  | case1 => rfl
  | case2 rest ih => exact absurd rfl (h '\r' (by simp))
  | case3 rest hne ih => exact absurd rfl (h '\r' (by simp))
  | case4 c rest hne1 hne2 ih =>
    rw [norm_cons_ne c rest fun hh => hne2 hh]
    rw [ih fun c' hc => h c' (List.mem_cons_of_mem c hc)]

theorem norm_idem (s : Str) :
    normalizeLineEndings (normalizeLineEndings s) = normalizeLineEndings s :=
  norm_of_no_cr _ (norm_no_cr s)

theorem splitNl_sub (s : Str) : ∀ l ∈ splitNl s, ∀ c ∈ l, c ∈ s := by
  induction s using splitNl.induct with
  | case1 => simp [splitNl]
  | case2 rest ih =>
    intro l hl c hc
    simp only [splitNl, if_true, List.mem_cons, reduceIte] at hl
    rcases hl with rfl | hl
    · simp at hc
    · exact List.mem_cons_of_mem _ (ih l hl c hc)
  | case3 c rest hne hnil ih =>
    intro l hl c' hc
    simp only [splitNl, if_neg hne, hnil, List.mem_cons, List.not_mem_nil, or_false] at hl
    subst hl
    rcases List.mem_cons.mp hc with rfl | hc2
    · simp
    · simp at hc2
  | case4 c rest hne h t heq ih =>
    intro l hl c' hc
    simp only [splitNl, if_neg hne, heq, List.mem_cons] at hl
    rcases hl with rfl | hl
    · rcases List.mem_cons.mp hc with rfl | hc2
      · simp
      · exact List.mem_cons_of_mem _ (ih h (heq ▸ List.mem_cons_self h t) c' hc2)
    · exact List.mem_cons_of_mem _ (ih l (heq ▸ List.mem_cons_of_mem h hl) c' hc)

theorem ensureStatus_hunks (f : DiffFile) : (ensureStatus f).hunks = f.hunks := by
  unfold ensureStatus
  split_ifs <;> rfl

theorem ensureStatus_oldPath (f : DiffFile) : (ensureStatus f).oldPath = f.oldPath := by
  unfold ensureStatus
  split_ifs <;> rfl

theorem ensureStatus_newPath (f : DiffFile) : (ensureStatus f).newPath = f.newPath := by
  unfold ensureStatus
  split_ifs <;> rfl

theorem pushHunkLine_noCr (f : DiffFile) (l : DiffLine)
    (hf : ∀ hk ∈ f.hunks, ∀ x ∈ hk.lines, lineNoCr x = true) (hl : lineNoCr l = true) :
    ∀ hk ∈ (pushHunkLine f l).hunks, ∀ x ∈ hk.lines, lineNoCr x = true := by
  unfold pushHunkLine
  cases hlast : f.hunks.getLast? with
  | none => exact hf
  | some h =>
    intro hk hhk x hx
    simp only [List.mem_append, List.mem_singleton] at hhk
    rcases hhk with hhk | rfl
    · exact hf hk (List.dropLast_sublist f.hunks |>.subset hhk) x hx
    · simp only [List.mem_append, List.mem_singleton] at hx
      rcases hx with hx | rfl
      · exact hf h (List.mem_of_mem_getLast? hlast) x hx
      · exact hl

theorem lineNoCr_drop (line : Str) (k : Nat) (hl : ∀ ch ∈ line, ch ≠ '\r')
    (ty : DiffLineType) (o n : Option Nat) :
    lineNoCr ⟨ty, line.drop k, o, n⟩ = true := by
  simp only [lineNoCr, List.all_eq_true, decide_eq_true_eq]
  exact fun c hc => hl c (List.mem_of_mem_drop hc)

theorem stMem_files {st : ParseState} (f : DiffFile) (hf : f ∈ st.files) :
    f ∈ st.files ++ st.cur.toList := List.mem_append_left _ hf

theorem stMem_cur {st : ParseState} (f : DiffFile) (hf : st.cur = some f) :
    f ∈ st.files ++ st.cur.toList := by
  rw [hf]
  exact List.mem_append_right _ (by simp)

/-- Exhaustive case analysis of one parser step: every branch either
returns the state unchanged or produces one of the listed states. -/
theorem parseStep_cases (st : ParseState) (line : Str) (motive : ParseState → Prop)
    (hid : motive st)
    (hheader : ∀ a b, matchDiffHeader line = some (a, b) →
      motive ⟨st.files ++ (st.cur.map ensureStatus).toList,
        some ⟨some a, some b, .modified, []⟩, false, st.oldLine, st.newLine⟩)
    (hmodeAdd : ∀ f, st.cur = some f → "new file mode".toList.isPrefixOf line = true →
      motive ⟨st.files, some { f with status := .added }, st.inHunk, st.oldLine, st.newLine⟩)
    (hmodeDel : ∀ f, st.cur = some f → "deleted file mode".toList.isPrefixOf line = true →
      motive ⟨st.files, some { f with status := .deleted }, st.inHunk, st.oldLine, st.newLine⟩)
    (hpathOld : ∀ f, st.cur = some f → "--- ".toList.isPrefixOf line = true →
      motive ⟨st.files, some { f with oldPath := parsePathField "a/" (line.drop 4) },
        st.inHunk, st.oldLine, st.newLine⟩)
    (hpathNew : ∀ f, st.cur = some f → "+++ ".toList.isPrefixOf line = true →
      motive ⟨st.files, some { f with newPath := parsePathField "b/" (line.drop 4) },
        st.inHunk, st.oldLine, st.newLine⟩)
    (hhunk : ∀ f os og ns ng, st.cur = some f → matchHunkHeader line = some (os, og, ns, ng) →
      motive ⟨st.files,
        some { f with hunks := f.hunks ++ [⟨line, os, og.getD 1, ns, ng.getD 1, []⟩] },
        true, os, ns⟩)
    (hadd : ∀ f, st.cur = some f → st.inHunk = true →
      motive ⟨st.files, some (pushHunkLine f ⟨.added, line.drop 1, none, some st.newLine⟩),
        st.inHunk, st.oldLine, st.newLine + 1⟩)
    (hrem : ∀ f, st.cur = some f → st.inHunk = true →
      motive ⟨st.files, some (pushHunkLine f ⟨.removed, line.drop 1, some st.oldLine, none⟩),
        st.inHunk, st.oldLine + 1, st.newLine⟩)
    (hctx : ∀ f, st.cur = some f → st.inHunk = true →
      motive ⟨st.files,
        some (pushHunkLine f ⟨.context, line.drop 1, some st.oldLine, some st.newLine⟩),
        st.inHunk, st.oldLine + 1, st.newLine + 1⟩) :
    motive (parseStep st line) := by
  rcases hmd : matchDiffHeader line with - | ⟨a, b⟩
  case some =>
    simp only [parseStep, hmd]
    exact hheader a b hmd
  case none =>
    rcases hcur : st.cur with - | f
    case none =>
      simp only [parseStep, hmd, hcur]
      exact hid
    case some =>
      simp only [parseStep, hmd, hcur]
      by_cases hb1 : "new file mode".toList.isPrefixOf line = true
      · rw [if_pos hb1]
        exact hmodeAdd f hcur hb1
      · rw [if_neg hb1]
        by_cases hb2 : "deleted file mode".toList.isPrefixOf line = true
        · rw [if_pos hb2]
          exact hmodeDel f hcur hb2
        · rw [if_neg hb2]
          by_cases hb3 : "--- ".toList.isPrefixOf line = true
          · rw [if_pos hb3]
            exact hpathOld f hcur hb3
          · rw [if_neg hb3]
            by_cases hb4 : "+++ ".toList.isPrefixOf line = true
            · rw [if_pos hb4]
              exact hpathNew f hcur hb4
            · rw [if_neg hb4]
              rcases hmh : matchHunkHeader line with - | ⟨os, og, ns, ng⟩
              · simp only [hmh]
                by_cases hin : st.inHunk = false
                · rw [if_pos hin]
                  exact hid
                · rw [if_neg hin]
                  have hin2 : st.inHunk = true := by
                    cases h : st.inHunk
                    · exact absurd h hin
                    · rfl
                  by_cases hb5 : "\\ No newline at end of file".toList.isPrefixOf line = true
                  · rw [if_pos hb5]
                    exact hid
                  · rw [if_neg hb5]
                    by_cases hb6 : "+".toList.isPrefixOf line = true
                    · rw [if_pos hb6]
                      by_cases hb7 : "+++".toList.isPrefixOf line = true
                      · rw [if_pos hb7]
                        exact hid
                      · rw [if_neg hb7]
                        exact hadd f hcur hin2
                    · rw [if_neg hb6]
                      by_cases hb8 : "-".toList.isPrefixOf line = true
                      · rw [if_pos hb8]
                        by_cases hb9 : "---".toList.isPrefixOf line = true
                        · rw [if_pos hb9]
                          exact hid
                        · rw [if_neg hb9]
                          exact hrem f hcur hin2
                      · rw [if_neg hb8]
                        by_cases hb10 : " ".toList.isPrefixOf line = true
                        · rw [if_pos hb10]
                          exact hctx f hcur hin2
                        · rw [if_neg hb10]
                          exact hid
              · simp only [hmh]
                exact hhunk f os og ns ng hcur hmh

theorem parseStep_noCr (st : ParseState) (line : Str)
    (hst : stNoCr st) (hl : ∀ ch ∈ line, ch ≠ '\r') : stNoCr (parseStep st line) := by
  refine parseStep_cases st line stNoCr hst ?_ ?_ ?_ ?_ ?_ ?_ ?_ ?_ ?_
  · intro a b _ f hf
    rcases List.mem_append.mp hf with hf | hf
    · rcases List.mem_append.mp hf with hf | hf
      · exact hst f (stMem_files f hf)
      · cases hcur : st.cur with
        | none => rw [hcur] at hf; simp at hf
        | some c =>
          rw [hcur] at hf
          simp at hf
          subst hf
          rw [ensureStatus_hunks]
          exact hst c (stMem_cur c hcur)
    · simp only [Option.toList_some, List.mem_singleton] at hf
      subst hf
      intro hk hhk
      simp at hhk
  · intro f0 hcur _ f hf
    rcases List.mem_append.mp hf with hf | hf
    · exact hst f (stMem_files f hf)
    · simp only [Option.toList_some, List.mem_singleton] at hf
      subst hf
      exact hst f0 (stMem_cur f0 hcur)
  · intro f0 hcur _ f hf
    rcases List.mem_append.mp hf with hf | hf
    · exact hst f (stMem_files f hf)
    · simp only [Option.toList_some, List.mem_singleton] at hf
      subst hf
      exact hst f0 (stMem_cur f0 hcur)
  · intro f0 hcur _ f hf
    rcases List.mem_append.mp hf with hf | hf
    · exact hst f (stMem_files f hf)
    · simp only [Option.toList_some, List.mem_singleton] at hf
      subst hf
      exact hst f0 (stMem_cur f0 hcur)
  · intro f0 hcur _ f hf
    rcases List.mem_append.mp hf with hf | hf
    · exact hst f (stMem_files f hf)
    · simp only [Option.toList_some, List.mem_singleton] at hf
      subst hf
      exact hst f0 (stMem_cur f0 hcur)
  · intro f0 os og ns ng hcur _ f hf
    rcases List.mem_append.mp hf with hf | hf
    · exact hst f (stMem_files f hf)
    · simp only [Option.toList_some, List.mem_singleton] at hf
      subst hf
      intro hk hhk
      rcases List.mem_append.mp hhk with hhk | hhk
      · exact hst f0 (stMem_cur f0 hcur) hk hhk
      · simp only [List.mem_singleton] at hhk
        subst hhk
        intro x hx
        simp at hx
  · intro f0 hcur _ f hf
    rcases List.mem_append.mp hf with hf | hf
    · exact hst f (stMem_files f hf)
    · simp only [Option.toList_some, List.mem_singleton] at hf
      subst hf
      exact pushHunkLine_noCr f0 _ (hst f0 (stMem_cur f0 hcur)) (lineNoCr_drop line 1 hl _ _ _)
  · intro f0 hcur _ f hf
    rcases List.mem_append.mp hf with hf | hf
    · exact hst f (stMem_files f hf)
    · simp only [Option.toList_some, List.mem_singleton] at hf
      subst hf
      exact pushHunkLine_noCr f0 _ (hst f0 (stMem_cur f0 hcur)) (lineNoCr_drop line 1 hl _ _ _)
  · intro f0 hcur _ f hf
    rcases List.mem_append.mp hf with hf | hf
    · exact hst f (stMem_files f hf)
    · simp only [Option.toList_some, List.mem_singleton] at hf
      subst hf
      exact pushHunkLine_noCr f0 _ (hst f0 (stMem_cur f0 hcur)) (lineNoCr_drop line 1 hl _ _ _)

theorem foldl_parseStep_noCr (lines : List Str) :
    ∀ st : ParseState, stNoCr st → (∀ l ∈ lines, ∀ ch ∈ l, ch ≠ '\r') →
      stNoCr (lines.foldl parseStep st) := by
  induction lines with
  | nil => intro st hst _; exact hst
  | cons l rest ih =>
    intro st hst hlines
    exact ih (parseStep st l) (parseStep_noCr st l hst (hlines l (by simp)))
      fun x hx => hlines x (List.mem_cons_of_mem _ hx)

/-- C9: the parser result is invariant under prior CR/CRLF normalization,
and no content string in the result contains a carriage return. -/
theorem lineEndingNormalizationInvariance (s : Str) :
    parseUnifiedDiff (normalizeLineEndings s) = parseUnifiedDiff s
      ∧ resultNoCr (parseUnifiedDiff s) = true := by
  constructor
  · unfold parseUnifiedDiff
    rw [norm_idem]
  · have hlines : ∀ l ∈ splitNl (normalizeLineEndings s), ∀ ch ∈ l, ch ≠ '\r' :=
      fun l hl ch hc => norm_no_cr s ch (splitNl_sub _ l hl ch hc)
    have hfold : stNoCr ((splitNl (normalizeLineEndings s)).foldl parseStep initParseState) :=
      foldl_parseStep_noCr _ initParseState (fun f hf => absurd hf (by simp [initParseState])) hlines
    rw [parseUnifiedDiff]
    rw [resultNoCr]
    rw [List.all_eq_true]
    intro f hf
    rw [List.mem_map] at hf
    obtain ⟨g, hg, rfl⟩ := hf
    simp only [List.all_eq_true]
    intro hk hhk x hx
    rw [ensureStatus_hunks] at hhk
    exact hfold g hg hk hhk x hx

theorem pushHunkLine_status (f : DiffFile) (l : DiffLine) :
    (pushHunkLine f l).status = f.status := by
  unfold pushHunkLine
  cases f.hunks.getLast? <;> rfl

theorem ensureStatus_spec (g : DiffFile) :
    ((ensureStatus g).oldPath = none → (ensureStatus g).newPath ≠ none →
        (ensureStatus g).status = .added)
      ∧ ((ensureStatus g).newPath = none → (ensureStatus g).oldPath ≠ none →
        (ensureStatus g).status = .deleted) := by
  unfold ensureStatus
  split_ifs with h1 h2
  · exact ⟨fun _ _ => rfl, fun hn _ => absurd hn h1.2⟩
  · exact ⟨fun ho _ => absurd ho h2.2, fun _ _ => rfl⟩
  · constructor
    · intro ho hn
      exact absurd ⟨ho, hn⟩ h1
    · intro hn ho
      exact absurd ⟨hn, ho⟩ h2

theorem ensureStatus_eq_self (g : DiffFile)
    (h1 : ¬(g.oldPath = none ∧ g.newPath ≠ none))
    (h2 : ¬(g.newPath = none ∧ g.oldPath ≠ none)) : ensureStatus g = g := by
  unfold ensureStatus
  rw [if_neg h1, if_neg h2]

theorem preStatus_ensure (c : DiffFile) (hc : c.status = .modified) :
    preStatus (ensureStatus c) := by
  unfold ensureStatus preStatus
  split_ifs with h1 h2
  · exact Or.inr (Or.inl ⟨h1.1, h1.2, rfl⟩)
  · exact Or.inr (Or.inr ⟨h2.1, h2.2, rfl⟩)
  · exact Or.inl hc

theorem parseStep_modInv (st : ParseState) (line : Str) (hmi : modInv st)
    (hline : "new file mode".toList.isPrefixOf line = false
      ∧ "deleted file mode".toList.isPrefixOf line = false) :
    modInv (parseStep st line) := by
  refine parseStep_cases st line modInv hmi ?_ ?_ ?_ ?_ ?_ ?_ ?_ ?_ ?_
  · intro a b _
    constructor
    · intro f hf
      rcases List.mem_append.mp hf with hf | hf
      · exact hmi.1 f hf
      · cases hcur : st.cur with
        | none => rw [hcur] at hf; simp at hf
        | some c =>
          rw [hcur] at hf
          simp at hf
          subst hf
          exact preStatus_ensure c (hmi.2 c (by simp [hcur]))
    · intro f hf
      simp only [Option.toList_some, List.mem_singleton] at hf
      subst hf
      rfl
  · intro f0 _ hpre
    rw [hline.1] at hpre
    exact absurd hpre (by simp)
  · intro f0 _ hpre
    rw [hline.2] at hpre
    exact absurd hpre (by simp)
  · intro f0 hcur _
    refine ⟨hmi.1, ?_⟩
    intro f hf
    simp only [Option.toList_some, List.mem_singleton] at hf
    subst hf
    exact hmi.2 f0 (by simp [hcur])
  · intro f0 hcur _
    refine ⟨hmi.1, ?_⟩
    intro f hf
    simp only [Option.toList_some, List.mem_singleton] at hf
    subst hf
    exact hmi.2 f0 (by simp [hcur])
  · intro f0 os og ns ng hcur _
    refine ⟨hmi.1, ?_⟩
    intro f hf
    simp only [Option.toList_some, List.mem_singleton] at hf
    subst hf
    exact hmi.2 f0 (by simp [hcur])
  · intro f0 hcur _
    refine ⟨hmi.1, ?_⟩
    intro f hf
    simp only [Option.toList_some, List.mem_singleton] at hf
    subst hf
    rw [pushHunkLine_status]
    exact hmi.2 f0 (by simp [hcur])
  · intro f0 hcur _
    refine ⟨hmi.1, ?_⟩
    intro f hf
    simp only [Option.toList_some, List.mem_singleton] at hf
    subst hf
    rw [pushHunkLine_status]
    exact hmi.2 f0 (by simp [hcur])
  · intro f0 hcur _
    refine ⟨hmi.1, ?_⟩
    intro f hf
    simp only [Option.toList_some, List.mem_singleton] at hf
    subst hf
    rw [pushHunkLine_status]
    exact hmi.2 f0 (by simp [hcur])

theorem foldl_parseStep_modInv (lines : List Str) :
    ∀ st : ParseState, modInv st →
      (∀ l ∈ lines, "new file mode".toList.isPrefixOf l = false
        ∧ "deleted file mode".toList.isPrefixOf l = false) →
      modInv (lines.foldl parseStep st) := by
  induction lines with
  | nil => intro st hmi _; exact hmi
  | cons l rest ih =>
    intro st hmi hlines
    exact ih (parseStep st l) (parseStep_modInv st l hmi (hlines l (by simp)))
      fun x hx => hlines x (List.mem_cons_of_mem _ hx)

/-- C4: for every input and parsed file, a null oldPath with non-null
newPath forces status "added", a null newPath with non-null oldPath forces
"deleted", and otherwise the status is "modified" whenever the input
contains no explicit `new file mode` / `deleted file mode` line. -/
theorem statusInference (s : Str) (f : DiffFile) (hf : f ∈ (parseUnifiedDiff s).files) :
    (f.oldPath = none → f.newPath ≠ none → f.status = .added)
      ∧ (f.newPath = none → f.oldPath ≠ none → f.status = .deleted)
      ∧ (noModeLines s → ¬(f.oldPath = none ∧ f.newPath ≠ none) →
          ¬(f.newPath = none ∧ f.oldPath ≠ none) → f.status = .modified) := by
  rw [parseUnifiedDiff] at hf
  rw [List.mem_map] at hf
  obtain ⟨g, hg, rfl⟩ := hf
  refine ⟨(ensureStatus_spec g).1, (ensureStatus_spec g).2, ?_⟩
  intro hnm hn1 hn2
  rw [ensureStatus_oldPath, ensureStatus_newPath] at hn1 hn2
  rw [ensureStatus_eq_self g hn1 hn2]
  have hmi : modInv ((splitNl (normalizeLineEndings s)).foldl parseStep initParseState) :=
    foldl_parseStep_modInv _ initParseState
      ⟨fun f hf => absurd hf (by simp [initParseState]),
       fun f hf => absurd hf (by simp [initParseState])⟩
      fun l hl => hnm l hl
  rcases List.mem_append.mp hg with hg | hg
  · rcases hmi.1 g hg with h | h | h
    · exact h
    · exact absurd ⟨h.1, h.2.1⟩ hn1
    · exact absurd ⟨h.1, h.2.1⟩ hn2
  · exact hmi.2 g hg

/-- Witness for C4: a plain `diff --git` header with no mode lines parses
to a file whose status is "modified". -/
theorem statusInference_witness :
    (⟨some "x".toList, some "x".toList, .modified, []⟩ : DiffFile).status =
      DiffFileStatus.modified :=
  (statusInference "diff --git a/x b/x".toList
      ⟨some "x".toList, some "x".toList, .modified, []⟩ (by decide)).2.2
    (by unfold noModeLines; decide) (by decide) (by decide)

theorem sideCountOld_append (a b : List DiffLine) :
    sideCountOld (a ++ b) = sideCountOld a + sideCountOld b := by
  simp [sideCountOld, List.countP_append]

theorem sideCountNew_append (a b : List DiffLine) :
    sideCountNew (a ++ b) = sideCountNew a + sideCountNew b := by
  simp [sideCountNew, List.countP_append]

theorem linesNumbered_append_one (x : DiffLine) : ∀ (ls : List DiffLine) (o n : Nat),
    linesNumbered o n ls →
    ((x.type = .added ∧ x.oldLineNumber = none
        ∧ x.newLineNumber = some (n + sideCountNew ls))
      ∨ (x.type = .removed ∧ x.newLineNumber = none
        ∧ x.oldLineNumber = some (o + sideCountOld ls))
      ∨ (x.type = .context ∧ x.oldLineNumber = some (o + sideCountOld ls)
        ∧ x.newLineNumber = some (n + sideCountNew ls))) →
    linesNumbered o n (ls ++ [x]) := by
  intro ls
  induction ls with
  | nil =>
    intro o n _ hx
    rcases hx with ⟨ht, h1, h2⟩ | ⟨ht, h1, h2⟩ | ⟨ht, h1, h2⟩ <;>
      simp [linesNumbered, ht, h1, h2, sideCountOld, sideCountNew] at h2 ⊢ <;>
      simp [ht, h1, h2]
  | cons l ls ih =>
    intro o n hl hx
    cases htl : l.type with
    | added =>
      simp only [linesNumbered, htl] at hl
      obtain ⟨h1, h2, h3⟩ := hl
      simp only [List.cons_append, linesNumbered, htl]
      refine ⟨h1, h2, ih o (n + 1) h3 ?_⟩
      have hcnt : n + sideCountNew (l :: ls) = n + 1 + sideCountNew ls := by
        simp [sideCountNew, List.countP_cons, htl]
        omega
      have hcnt2 : o + sideCountOld (l :: ls) = o + sideCountOld ls := by
        simp [sideCountOld, List.countP_cons, htl]
      rw [hcnt, hcnt2] at hx
      exact hx
    | removed =>
      simp only [linesNumbered, htl] at hl
      obtain ⟨h1, h2, h3⟩ := hl
      simp only [List.cons_append, linesNumbered, htl]
      refine ⟨h1, h2, ih (o + 1) n h3 ?_⟩
      have hcnt : o + sideCountOld (l :: ls) = o + 1 + sideCountOld ls := by
        simp [sideCountOld, List.countP_cons, htl]
        omega
      have hcnt2 : n + sideCountNew (l :: ls) = n + sideCountNew ls := by
        simp [sideCountNew, List.countP_cons, htl]
      rw [hcnt, hcnt2] at hx
      exact hx
    | context =>
      simp only [linesNumbered, htl] at hl
      obtain ⟨h1, h2, h3⟩ := hl
      simp only [List.cons_append, linesNumbered, htl]
      refine ⟨h1, h2, ih (o + 1) (n + 1) h3 ?_⟩
      have hcnt : o + sideCountOld (l :: ls) = o + 1 + sideCountOld ls := by
        simp [sideCountOld, List.countP_cons, htl]
        omega
      have hcnt2 : n + sideCountNew (l :: ls) = n + 1 + sideCountNew ls := by
        simp [sideCountNew, List.countP_cons, htl]
        omega
      rw [hcnt, hcnt2] at hx
      exact hx

theorem linesNumbered_get (ls : List DiffLine) : ∀ (o n i : Nat),
    linesNumbered o n ls → i < ls.length →
    ((ls.getD i dummyLine).type = .added →
        (ls.getD i dummyLine).oldLineNumber = none
          ∧ (ls.getD i dummyLine).newLineNumber = some (n + sideCountNew (ls.take i)))
    ∧ ((ls.getD i dummyLine).type = .removed →
        (ls.getD i dummyLine).newLineNumber = none
          ∧ (ls.getD i dummyLine).oldLineNumber = some (o + sideCountOld (ls.take i)))
    ∧ ((ls.getD i dummyLine).type = .context →
        (ls.getD i dummyLine).oldLineNumber = some (o + sideCountOld (ls.take i))
          ∧ (ls.getD i dummyLine).newLineNumber = some (n + sideCountNew (ls.take i))) := by
  induction ls with
  | nil => intro o n i _ hi; simp at hi
  | cons l ls ih =>
    intro o n i hl hi
    cases i with
    | zero =>
      simp only [List.getD_cons_zero, List.take_zero, sideCountOld, sideCountNew,
        List.countP_nil, Nat.add_zero]
      cases htl : l.type with
      | added =>
        simp only [linesNumbered, htl] at hl
        exact ⟨fun _ => ⟨hl.1, hl.2.1⟩, fun hc => by simp at hc, fun hc => by simp at hc⟩
      | removed =>
        simp only [linesNumbered, htl] at hl
        exact ⟨fun hc => by simp at hc, fun _ => ⟨hl.1, hl.2.1⟩, fun hc => by simp at hc⟩
      | context =>
        simp only [linesNumbered, htl] at hl
        exact ⟨fun hc => by simp at hc, fun hc => by simp at hc, fun _ => ⟨hl.1, hl.2.1⟩⟩
    | succ j =>
      simp only [List.getD_cons_succ, List.take_succ_cons]
      have hj : j < ls.length := by simpa using hi
      cases htl : l.type with
      | added =>
        simp only [linesNumbered, htl] at hl
        have := ih o (n + 1) j hl.2.2 hj
        have hc1 : o + sideCountOld (l :: ls.take j) = o + sideCountOld (ls.take j) := by
          simp [sideCountOld, List.countP_cons, htl]
        have hc2 : n + sideCountNew (l :: ls.take j) = n + 1 + sideCountNew (ls.take j) := by
          simp [sideCountNew, List.countP_cons, htl]
          omega
        rw [hc1, hc2]
        exact this
      | removed =>
        simp only [linesNumbered, htl] at hl
        have := ih (o + 1) n j hl.2.2 hj
        have hc1 : o + sideCountOld (l :: ls.take j) = o + 1 + sideCountOld (ls.take j) := by
          simp [sideCountOld, List.countP_cons, htl]
          omega
        have hc2 : n + sideCountNew (l :: ls.take j) = n + sideCountNew (ls.take j) := by
          simp [sideCountNew, List.countP_cons, htl]
        rw [hc1, hc2]
        exact this
      | context =>
        simp only [linesNumbered, htl] at hl
        have := ih (o + 1) (n + 1) j hl.2.2 hj
        have hc1 : o + sideCountOld (l :: ls.take j) = o + 1 + sideCountOld (ls.take j) := by
          simp [sideCountOld, List.countP_cons, htl]
          omega
        have hc2 : n + sideCountNew (l :: ls.take j) = n + 1 + sideCountNew (ls.take j) := by
          simp [sideCountNew, List.countP_cons, htl]
          omega
        rw [hc1, hc2]
        exact this

theorem fileNumbered_ensure (c : DiffFile) (hc : fileNumbered c) :
    fileNumbered (ensureStatus c) := by
  intro h hh
  rw [ensureStatus_hunks] at hh
  exact hc h hh

theorem parseStep_numInv (st : ParseState) (line : Str) (hni : numInv st) :
    numInv (parseStep st line) := by
  refine parseStep_cases st line numInv hni ?_ ?_ ?_ ?_ ?_ ?_ ?_ ?_ ?_
  · -- new file header
    intro a b _
    constructor
    · intro f hf
      rcases List.mem_append.mp hf with hf | hf
      · rcases List.mem_append.mp hf with hf | hf
        · exact hni.1 f (List.mem_append_left _ hf)
        · cases hcur : st.cur with
          | none => rw [hcur] at hf; simp at hf
          | some c =>
            rw [hcur] at hf
            simp at hf
            subst hf
            exact fileNumbered_ensure c (hni.1 c (by rw [hcur]; exact List.mem_append_right _ (by simp)))
      · simp only [Option.toList_some, List.mem_singleton] at hf
        subst hf
        intro h hh
        simp at hh
    · intro hin
      simp at hin
  · -- new file mode
    intro f0 hcur _
    constructor
    · intro f hf
      rcases List.mem_append.mp hf with hf | hf
      · exact hni.1 f (List.mem_append_left _ hf)
      · simp only [Option.toList_some, List.mem_singleton] at hf
        subst hf
        intro h hh
        exact hni.1 f0 (by rw [hcur]; exact List.mem_append_right _ (by simp)) h hh
    · intro hin
      obtain ⟨f, h, hc, hl, ho, hn⟩ := hni.2 hin
      rw [hcur] at hc
      injection hc with hc
      subst hc
      exact ⟨_, h, rfl, hl, ho, hn⟩
  · -- deleted file mode
    intro f0 hcur _
    constructor
    · intro f hf
      rcases List.mem_append.mp hf with hf | hf
      · exact hni.1 f (List.mem_append_left _ hf)
      · simp only [Option.toList_some, List.mem_singleton] at hf
        subst hf
        intro h hh
        exact hni.1 f0 (by rw [hcur]; exact List.mem_append_right _ (by simp)) h hh
    · intro hin
      obtain ⟨f, h, hc, hl, ho, hn⟩ := hni.2 hin
      rw [hcur] at hc
      injection hc with hc
      subst hc
      exact ⟨_, h, rfl, hl, ho, hn⟩
  · -- old path
    intro f0 hcur _
    constructor
    · intro f hf
      rcases List.mem_append.mp hf with hf | hf
      · exact hni.1 f (List.mem_append_left _ hf)
      · simp only [Option.toList_some, List.mem_singleton] at hf
        subst hf
        intro h hh
        exact hni.1 f0 (by rw [hcur]; exact List.mem_append_right _ (by simp)) h hh
    · intro hin
      obtain ⟨f, h, hc, hl, ho, hn⟩ := hni.2 hin
      rw [hcur] at hc
      injection hc with hc
      subst hc
      exact ⟨_, h, rfl, hl, ho, hn⟩
  · -- new path
    intro f0 hcur _
    constructor
    · intro f hf
      rcases List.mem_append.mp hf with hf | hf
      · exact hni.1 f (List.mem_append_left _ hf)
      · simp only [Option.toList_some, List.mem_singleton] at hf
        subst hf
        intro h hh
        exact hni.1 f0 (by rw [hcur]; exact List.mem_append_right _ (by simp)) h hh
    · intro hin
      obtain ⟨f, h, hc, hl, ho, hn⟩ := hni.2 hin
      rw [hcur] at hc
      injection hc with hc
      subst hc
      exact ⟨_, h, rfl, hl, ho, hn⟩
  · -- hunk header
    intro f0 os og ns ng hcur _
    constructor
    · intro f hf
      rcases List.mem_append.mp hf with hf | hf
      · exact hni.1 f (List.mem_append_left _ hf)
      · simp only [Option.toList_some, List.mem_singleton] at hf
        subst hf
        intro h hh
        rcases List.mem_append.mp hh with hh | hh
        · exact hni.1 f0 (by rw [hcur]; exact List.mem_append_right _ (by simp)) h hh
        · simp only [List.mem_singleton] at hh
          subst hh
          exact trivial
    · intro _
      refine ⟨_, _, rfl, List.getLast?_concat _, ?_, ?_⟩ <;>
        simp [sideCountOld, sideCountNew]
  · -- added line
    intro f0 hcur hin
    obtain ⟨f, h, hc, hl, ho, hn⟩ := hni.2 hin
    rw [hcur] at hc
    injection hc with hc
    subst hc
    have hpush : pushHunkLine f0 ⟨.added, line.drop 1, none, some st.newLine⟩ =
        { f0 with hunks := f0.hunks.dropLast
            ++ [{ h with lines := h.lines ++ [⟨.added, line.drop 1, none, some st.newLine⟩] }] } := by
      unfold pushHunkLine
      rw [hl]
    constructor
    · intro f hf
      rcases List.mem_append.mp hf with hf | hf
      · exact hni.1 f (List.mem_append_left _ hf)
      · simp only [Option.toList_some, List.mem_singleton] at hf
        subst hf
        rw [hpush]
        intro hk hhk
        rcases List.mem_append.mp hhk with hhk | hhk
        · exact hni.1 f0 (by rw [hcur]; exact List.mem_append_right _ (by simp)) hk
            (List.dropLast_sublist f0.hunks |>.subset hhk)
        · simp only [List.mem_singleton] at hhk
          subst hhk
          unfold hunkNumbered
          refine linesNumbered_append_one _ _ _ _
            (hni.1 f0 (by rw [hcur]; exact List.mem_append_right _ (by simp)) h
              (List.mem_of_mem_getLast? hl)) ?_
          left
          exact ⟨rfl, rfl, by rw [hn]⟩
    · intro _
      refine ⟨_, { h with lines := h.lines ++ [⟨.added, line.drop 1, none, some st.newLine⟩] }, rfl, ?_, ?_, ?_⟩
      · rw [hpush]
        exact List.getLast?_concat _
      · rw [ho]
        simp [sideCountOld_append, sideCountOld, List.countP_cons]
      · rw [hn]
        simp [sideCountNew_append, sideCountNew, List.countP_cons]
        omega
  · -- removed line
    intro f0 hcur hin
    obtain ⟨f, h, hc, hl, ho, hn⟩ := hni.2 hin
    rw [hcur] at hc
    injection hc with hc
    subst hc
    have hpush : pushHunkLine f0 ⟨.removed, line.drop 1, some st.oldLine, none⟩ =
        { f0 with hunks := f0.hunks.dropLast
            ++ [{ h with lines := h.lines ++ [⟨.removed, line.drop 1, some st.oldLine, none⟩] }] } := by
      unfold pushHunkLine
      rw [hl]
    constructor
    · intro f hf
      rcases List.mem_append.mp hf with hf | hf
      · exact hni.1 f (List.mem_append_left _ hf)
      · simp only [Option.toList_some, List.mem_singleton] at hf
        subst hf
        rw [hpush]
        intro hk hhk
        rcases List.mem_append.mp hhk with hhk | hhk
        · exact hni.1 f0 (by rw [hcur]; exact List.mem_append_right _ (by simp)) hk
            (List.dropLast_sublist f0.hunks |>.subset hhk)
        · simp only [List.mem_singleton] at hhk
          subst hhk
          unfold hunkNumbered
          refine linesNumbered_append_one _ _ _ _
            (hni.1 f0 (by rw [hcur]; exact List.mem_append_right _ (by simp)) h
              (List.mem_of_mem_getLast? hl)) ?_
          right; left
          exact ⟨rfl, rfl, by rw [ho]⟩
    · intro _
      refine ⟨_, { h with lines := h.lines ++ [⟨.removed, line.drop 1, some st.oldLine, none⟩] }, rfl, ?_, ?_, ?_⟩
      · rw [hpush]
        exact List.getLast?_concat _
      · rw [ho]
        simp [sideCountOld_append, sideCountOld, List.countP_cons]
        omega
      · rw [hn]
        simp [sideCountNew_append, sideCountNew, List.countP_cons]
  · -- context line
    intro f0 hcur hin
    obtain ⟨f, h, hc, hl, ho, hn⟩ := hni.2 hin
    rw [hcur] at hc
    injection hc with hc
    subst hc
    have hpush : pushHunkLine f0 ⟨.context, line.drop 1, some st.oldLine, some st.newLine⟩ =
        { f0 with hunks := f0.hunks.dropLast
            ++ [{ h with lines := h.lines ++ [⟨.context, line.drop 1, some st.oldLine, some st.newLine⟩] }] } := by
      unfold pushHunkLine
      rw [hl]
    constructor
    · intro f hf
      rcases List.mem_append.mp hf with hf | hf
      · exact hni.1 f (List.mem_append_left _ hf)
      · simp only [Option.toList_some, List.mem_singleton] at hf
        subst hf
        rw [hpush]
        intro hk hhk
        rcases List.mem_append.mp hhk with hhk | hhk
        · exact hni.1 f0 (by rw [hcur]; exact List.mem_append_right _ (by simp)) hk
            (List.dropLast_sublist f0.hunks |>.subset hhk)
        · simp only [List.mem_singleton] at hhk
          subst hhk
          unfold hunkNumbered
          refine linesNumbered_append_one _ _ _ _
            (hni.1 f0 (by rw [hcur]; exact List.mem_append_right _ (by simp)) h
              (List.mem_of_mem_getLast? hl)) ?_
          right; right
          exact ⟨rfl, by rw [ho], by rw [hn]⟩
    · intro _
      refine ⟨_, { h with lines := h.lines ++ [⟨.context, line.drop 1, some st.oldLine, some st.newLine⟩] }, rfl, ?_, ?_, ?_⟩
      · rw [hpush]
        exact List.getLast?_concat _
      · rw [ho]
        simp [sideCountOld_append, sideCountOld, List.countP_cons]
        omega
      · rw [hn]
        simp [sideCountNew_append, sideCountNew, List.countP_cons]
        omega

theorem foldl_parseStep_numInv (lines : List Str) :
    ∀ st : ParseState, numInv st → numInv (lines.foldl parseStep st) := by
  induction lines with
  | nil => intro st hni; exact hni
  | cons l rest ih => intro st hni; exact ih (parseStep st l) (parseStep_numInv st l hni)

/-- C5: every parsed added line carries no oldLineNumber, every removed
line no newLineNumber, and every carried number equals the hunk's start
plus the count of preceding lines present on that side. -/
theorem lineNumberInvariant (s : Str) (f : DiffFile) (h : DiffHunk) (i : Nat)
    (hf : f ∈ (parseUnifiedDiff s).files) (hh : h ∈ f.hunks) (hi : i < h.lines.length) :
    lineNumberProp h i := by
  rw [parseUnifiedDiff, List.mem_map] at hf
  obtain ⟨g, hg, rfl⟩ := hf
  rw [ensureStatus_hunks] at hh
  have hni : numInv ((splitNl (normalizeLineEndings s)).foldl parseStep initParseState) :=
    foldl_parseStep_numInv _ initParseState
      ⟨fun f hf => absurd hf (by simp [initParseState]),
       fun hin => by simp [initParseState] at hin⟩
  have hnum : hunkNumbered h := hni.1 g hg h hh
  exact linesNumbered_get h.lines h.oldStart h.newStart i hnum hi

/-- Witness for C5: the spec's example 1 diff, checked at its context line. -/
theorem lineNumberInvariant_witness :
    lineNumberProp ⟨"@@ -1,2 +1,2 @@".toList, 1, 2, 1, 2,
      [⟨.removed, "hello".toList, some 1, none⟩,
       ⟨.added, "hello world".toList, none, some 1⟩,
       ⟨.context, "keep".toList, some 2, some 2⟩]⟩ 2 :=
  lineNumberInvariant
    "diff --git a/a.txt b/a.txt\n@@ -1,2 +1,2 @@\n-hello\n+hello world\n keep".toList
    ⟨some "a.txt".toList, some "a.txt".toList, .modified,
      [⟨"@@ -1,2 +1,2 @@".toList, 1, 2, 1, 2,
        [⟨.removed, "hello".toList, some 1, none⟩,
         ⟨.added, "hello world".toList, none, some 1⟩,
         ⟨.context, "keep".toList, some 2, some 2⟩]⟩]⟩
    ⟨"@@ -1,2 +1,2 @@".toList, 1, 2, 1, 2,
      [⟨.removed, "hello".toList, some 1, none⟩,
       ⟨.added, "hello world".toList, none, some 1⟩,
       ⟨.context, "keep".toList, some 2, some 2⟩]⟩ 2
    (by decide) (by decide) (by decide)

theorem leftCount_append (a b : List VisualRow) :
    leftCount (a ++ b) = leftCount a + leftCount b := by
  simp [leftCount, List.countP_append]

theorem rightCount_append (a b : List VisualRow) :
    rightCount (a ++ b) = rightCount a + rightCount b := by
  simp [rightCount, List.countP_append]

theorem counts_pushContextRow (st : BuildSt) (id c : Str) (o n : Nat) :
    leftCount (pushContextRow st id c o n).rows = leftCount st.rows + 1
      ∧ rightCount (pushContextRow st id c o n).rows = rightCount st.rows + 1 := by
  simp [pushContextRow, leftCount, rightCount, List.countP_append, List.countP_cons,
    LeftCell.isSpacer, RightCell.isSpacer]

theorem counts_pushRemovedRow (st : BuildSt) (id c : Str) (o : Nat) :
    leftCount (pushRemovedRow st id c o).rows = leftCount st.rows + 1
      ∧ rightCount (pushRemovedRow st id c o).rows = rightCount st.rows := by
  simp [pushRemovedRow, leftCount, rightCount, List.countP_append, List.countP_cons,
    LeftCell.isSpacer, RightCell.isSpacer]

theorem counts_pushAddedRow (st : BuildSt) (id c : Str) (n : Nat) :
    leftCount (pushAddedRow st id c n).rows = leftCount st.rows
      ∧ rightCount (pushAddedRow st id c n).rows = rightCount st.rows + 1 := by
  simp [pushAddedRow, leftCount, rightCount, List.countP_append, List.countP_cons,
    LeftCell.isSpacer, RightCell.isSpacer]

theorem counts_gapStep (so sn : List Str) (o1 n1 oc nc : Int) (st : BuildSt) (off : Nat) :
    leftCount (gapStep so sn o1 n1 oc nc st off).rows
        = leftCount st.rows + (if (off : Int) < oc then 1 else 0)
      ∧ rightCount (gapStep so sn o1 n1 oc nc st off).rows
        = rightCount st.rows + (if (off : Int) < nc then 1 else 0) := by
  unfold gapStep
  by_cases ho : (off : Int) < oc <;> by_cases hn : (off : Int) < nc
  · rw [if_pos ⟨ho, hn⟩]
    exact ⟨by rw [(counts_pushContextRow st _ _ _ _).1, if_pos ho],
      by rw [(counts_pushContextRow st _ _ _ _).2, if_pos hn]⟩
  · rw [if_neg (fun hand => hn hand.2), if_pos ho]
    refine ⟨by rw [(counts_pushRemovedRow st _ _ _).1, if_pos ho], ?_⟩
    rw [(counts_pushRemovedRow st _ _ _).2, if_neg hn]
    omega
  · rw [if_neg (fun hand => ho hand.1), if_neg ho, if_pos hn]
    refine ⟨?_, ?_⟩
    · rw [(counts_pushAddedRow st _ _ _).1, if_neg ho]
      omega
    · rw [(counts_pushAddedRow st _ _ _).2, if_pos hn]
  · rw [if_neg (fun hand => ho hand.1), if_neg ho, if_neg hn]
    rw [if_neg ho, if_neg hn]
    exact ⟨by omega, by omega⟩

theorem counts_gapFold (so sn : List Str) (o1 n1 oc nc : Int) :
    ∀ (k : Nat) (st : BuildSt),
      leftCount ((List.range k).foldl (gapStep so sn o1 n1 oc nc) st).rows
          = leftCount st.rows + min k oc.toNat
        ∧ rightCount ((List.range k).foldl (gapStep so sn o1 n1 oc nc) st).rows
          = rightCount st.rows + min k nc.toNat := by
  intro k
  induction k with
  | zero => intro st; simp
  | succ m ih =>
    intro st
    rw [List.range_succ, List.foldl_append]
    have h1 := counts_gapStep so sn o1 n1 oc nc ((List.range m).foldl (gapStep so sn o1 n1 oc nc) st) m
    have h2 := ih st
    constructor
    · rw [List.foldl_cons, List.foldl_nil] at *
      rw [h1.1, h2.1]
      split_ifs with hc
      · omega
      · omega
    · rw [List.foldl_cons, List.foldl_nil] at *
      rw [h1.2, h2.2]
      split_ifs with hc
      · omega
      · omega

theorem counts_pushGapLines (so sn : List Str) (st : BuildSt) (o1 o2 n1 n2 : Int) :
    leftCount (pushGapLines so sn st o1 o2 n1 n2).rows
        = leftCount st.rows + (max 0 (o2 - o1 + 1)).toNat
      ∧ rightCount (pushGapLines so sn st o1 o2 n1 n2).rows
        = rightCount st.rows + (max 0 (n2 - n1 + 1)).toNat := by
  unfold pushGapLines
  split_ifs with hg
  · constructor <;> omega
  · have := counts_gapFold so sn o1 n1 (max 0 (o2 - o1 + 1)) (max 0 (n2 - n1 + 1))
      (max (max 0 (o2 - o1 + 1)) (max 0 (n2 - n1 + 1))).toNat st
    constructor
    · rw [this.1]; omega
    · rw [this.2]; omega

theorem counts_hunkCtxStep (hi i : Nat) (l : DiffLine) (st : BuildSt) :
    leftCount (hunkCtxStep hi i l st).rows = leftCount st.rows + 1
      ∧ rightCount (hunkCtxStep hi i l st).rows = rightCount st.rows + 1 := by
  simp [hunkCtxStep, leftCount, rightCount, List.countP_append, List.countP_cons,
    LeftCell.isSpacer, RightCell.isSpacer]

theorem counts_hunkChangeStep (hi i : Nat) (a b : DiffLine) (st : BuildSt) :
    leftCount (hunkChangeStep hi i a b st).rows = leftCount st.rows + 1
      ∧ rightCount (hunkChangeStep hi i a b st).rows = rightCount st.rows + 1 := by
  simp [hunkChangeStep, leftCount, rightCount, List.countP_append, List.countP_cons,
    LeftCell.isSpacer, RightCell.isSpacer]

theorem counts_hunkRemovedStep (hi i : Nat) (l : DiffLine) (st : BuildSt) :
    leftCount (hunkRemovedStep hi i l st).rows = leftCount st.rows + 1
      ∧ rightCount (hunkRemovedStep hi i l st).rows = rightCount st.rows := by
  simp [hunkRemovedStep, leftCount, rightCount, List.countP_append, List.countP_cons,
    LeftCell.isSpacer, RightCell.isSpacer]

theorem counts_hunkAddedStep (hi i : Nat) (l : DiffLine) (st : BuildSt) :
    leftCount (hunkAddedStep hi i l st).rows = leftCount st.rows
      ∧ rightCount (hunkAddedStep hi i l st).rows = rightCount st.rows + 1 := by
  simp [hunkAddedStep, leftCount, rightCount, List.countP_append, List.countP_cons,
    LeftCell.isSpacer, RightCell.isSpacer]

theorem counts_walkHunk (hi : Nat) : ∀ (i : Nat) (ls : List DiffLine) (st : BuildSt),
    leftCount (walkHunk hi i ls st).rows = leftCount st.rows + sideCountOld ls
      ∧ rightCount (walkHunk hi i ls st).rows = rightCount st.rows + sideCountNew ls := by
  intro i ls st
  induction i, ls, st using walkHunk.induct hi with
  | case1 i st => simp [walkHunk, sideCountOld, sideCountNew]
  | case2 i l st h =>
    rw [walkHunk, if_pos h]
    constructor
    · rw [(counts_hunkCtxStep hi i l st).1]
      simp [sideCountOld, List.countP_cons, h]
    · rw [(counts_hunkCtxStep hi i l st).2]
      simp [sideCountNew, List.countP_cons, h]
  | case3 i l st h1 h2 =>
    rw [walkHunk, if_neg h1, if_pos h2]
    constructor
    · rw [(counts_hunkRemovedStep hi i l st).1]
      simp [sideCountOld, List.countP_cons, h2]
    · rw [(counts_hunkRemovedStep hi i l st).2]
      simp [sideCountNew, List.countP_cons, h2]
  | case4 i l st h1 h2 =>
    rw [walkHunk, if_neg h1, if_neg h2]
    have h3 : l.type = .added := by
      cases h : l.type
      · exact absurd h h1
      · rfl
      · exact absurd h h2
    constructor
    · rw [(counts_hunkAddedStep hi i l st).1]
      simp [sideCountOld, List.countP_cons, h3]
    · rw [(counts_hunkAddedStep hi i l st).2]
      simp [sideCountNew, List.countP_cons, h3]
  | case5 i l nxt rest st h ih =>
    rw [walkHunk, if_pos h]
    constructor
    · rw [ih.1, (counts_hunkCtxStep hi i l st).1]
      simp [sideCountOld, List.countP_cons, h]
      omega
    · rw [ih.2, (counts_hunkCtxStep hi i l st).2]
      simp [sideCountNew, List.countP_cons, h]
      omega
  | case6 i l nxt rest st h1 h2 ih =>
    rw [walkHunk, if_neg h1, if_pos h2]
    constructor
    · rw [ih.1, (counts_hunkChangeStep hi i l nxt st).1]
      simp [sideCountOld, List.countP_cons, h2.1, h2.2]
      omega
    · rw [ih.2, (counts_hunkChangeStep hi i l nxt st).2]
      simp [sideCountNew, List.countP_cons, h2.1, h2.2]
      omega
  | case7 i l nxt rest st h1 h2 h3 ih =>
    rw [walkHunk, if_neg h1, if_neg h2, if_pos h3]
    constructor
    · rw [ih.1, (counts_hunkChangeStep hi i nxt l st).1]
      simp [sideCountOld, List.countP_cons, h3.1, h3.2]
      omega
    · rw [ih.2, (counts_hunkChangeStep hi i nxt l st).2]
      simp [sideCountNew, List.countP_cons, h3.1, h3.2]
      omega
  | case8 i l nxt rest st h1 h2 h3 h4 ih =>
    rw [walkHunk, if_neg h1, if_neg h2, if_neg h3, if_pos h4]
    constructor
    · rw [ih.1, (counts_hunkRemovedStep hi i l st).1]
      simp [sideCountOld, List.countP_cons, h4]
      omega
    · rw [ih.2, (counts_hunkRemovedStep hi i l st).2]
      simp [sideCountNew, List.countP_cons, h4]
  | case9 i l nxt rest st h1 h2 h3 h4 ih =>
    rw [walkHunk, if_neg h1, if_neg h2, if_neg h3, if_neg h4]
    have h5 : l.type = .added := by
      cases h : l.type
      · exact absurd h h1
      · rfl
      · exact absurd h h4
    constructor
    · rw [ih.1, (counts_hunkAddedStep hi i l st).1]
      simp [sideCountOld, List.countP_cons, h5]
    · rw [ih.2, (counts_hunkAddedStep hi i l st).2]
      simp [sideCountNew, List.countP_cons, h5]
      omega

theorem hunksWF_le (M N : Nat) :
    ∀ (hunks : List DiffHunk) (no nn : Int), hunksWF M N no nn hunks →
      no ≤ M + 1 ∧ nn ≤ N + 1 := by
  intro hunks
  induction hunks with
  | nil => intro no nn h; exact h
  | cons h rest ih =>
    intro no nn hwf
    obtain ⟨h1, h2, _, _, hrest⟩ := hwf
    have := ih _ _ hrest
    constructor <;> omega

theorem counts_processHunks_full (so sn : List Str) (M N : Nat) :
    ∀ (hunks : List DiffHunk) (hi : Nat) (st : BuildSt) (no nn : Int),
      hunksWF M N no nn hunks → 1 ≤ no → 1 ≤ nn →
      leftCount (pushGapLines so sn
          (processHunks so sn true hi hunks (st, no, nn)).1
          (processHunks so sn true hi hunks (st, no, nn)).2.1 M
          (processHunks so sn true hi hunks (st, no, nn)).2.2 N).rows
        = leftCount st.rows + (M + 1 - no).toNat
      ∧ rightCount (pushGapLines so sn
          (processHunks so sn true hi hunks (st, no, nn)).1
          (processHunks so sn true hi hunks (st, no, nn)).2.1 M
          (processHunks so sn true hi hunks (st, no, nn)).2.2 N).rows
        = rightCount st.rows + (N + 1 - nn).toNat := by
  intro hunks
  induction hunks with
  | nil =>
    intro hi st no nn hwf h1 h2
    obtain ⟨hM, hN⟩ := hwf
    simp only [processHunks]
    have := counts_pushGapLines so sn st no M nn N
    constructor
    · rw [this.1]; omega
    · rw [this.2]; omega
  | cons h rest ih =>
    intro hi st no nn hwf h1 h2
    obtain ⟨hno, hnn, hco, hcn, hrest⟩ := hwf
    have hle := hunksWF_le M N rest _ _ hrest
    simp only [processHunks, if_true]
    set st1 := pushGapLines so sn st no ((h.oldStart : Int) - 1) nn ((h.newStart : Int) - 1) with hst1
    set st2 := walkHunk hi 0 h.lines st1 with hst2
    have hg := counts_pushGapLines so sn st no ((h.oldStart : Int) - 1) nn ((h.newStart : Int) - 1)
    have hw := counts_walkHunk hi 0 h.lines st1
    have hrec := ih (hi + 1) st2 ((h.oldStart : Int) + h.oldLines) ((h.newStart : Int) + h.newLines)
      hrest (by omega) (by omega)
    constructor
    · rw [hrec.1, hw.1, hg.1, hco]
      omega
    · rw [hrec.2, hw.2, hg.2, hcn]
      omega

theorem counts_processHunks_nofull (so sn : List Str) :
    ∀ (hunks : List DiffHunk) (hi : Nat) (st : BuildSt) (no nn : Int),
      hunksWF 0 0 no nn hunks → 1 ≤ no → 1 ≤ nn →
      leftCount (processHunks so sn false hi hunks (st, no, nn)).1.rows = leftCount st.rows
      ∧ rightCount (processHunks so sn false hi hunks (st, no, nn)).1.rows = rightCount st.rows := by
  intro hunks
  induction hunks with
  | nil => intro hi st no nn _ _ _; exact ⟨rfl, rfl⟩
  | cons h rest ih =>
    intro hi st no nn hwf h1 h2
    obtain ⟨hno, hnn, hco, hcn, hrest⟩ := hwf
    have hle := hunksWF_le 0 0 rest _ _ hrest
    have hol : h.oldLines = 0 := by omega
    have hnl : h.newLines = 0 := by omega
    simp only [processHunks, Bool.false_eq_true, if_false]
    have hw := counts_walkHunk hi 0 h.lines st
    have hrec := ih (hi + 1) (walkHunk hi 0 h.lines st) ((h.oldStart : Int) + h.oldLines)
      ((h.newStart : Int) + h.newLines) hrest (by omega) (by omega)
    constructor
    · rw [hrec.1, hw.1, hco, hol]
      omega
    · rw [hrec.2, hw.2, hcn, hnl]
      omega

/-- C2: for well-formed hunks consistent with the supplied full file
contents, the builder's rows contain exactly M real left cells and N real
right cells. -/
theorem visualRowCompleteness (oldL newL : List Str) (f : DiffFile)
    (hwf : hunksWF oldL.length newL.length 1 1 f.hunks) :
    leftCount (buildVisualRows f (some oldL) (some newL)).rows = oldL.length
      ∧ rightCount (buildVisualRows f (some oldL) (some newL)).rows = newL.length := by
  have hrows : (buildVisualRows f (some oldL) (some newL)).rows
      = (buildVisualRowsRaw f (some oldL) (some newL)).rows := rfl
  rw [hrows]
  unfold buildVisualRowsRaw
  by_cases hful : (!(List.isEmpty oldL) || !(List.isEmpty newL)) = true
  · simp only [Option.getD_some, hful, if_pos]
    have := counts_processHunks_full oldL newL oldL.length newL.length f.hunks 0
      ⟨[], [], 0, 0⟩ 1 1 hwf (by omega) (by omega)
    constructor
    · rw [this.1]
      simp [leftCount]
    · rw [this.2]
      simp [rightCount]
  · have ho : oldL = [] := by
      rcases oldL with - | ⟨x, xs⟩
      · rfl
      · simp [List.isEmpty] at hful
    have hn : newL = [] := by
      rcases newL with - | ⟨x, xs⟩
      · rfl
      · simp [List.isEmpty] at hful
    subst ho
    subst hn
    simp only [Option.getD_some, List.isEmpty_nil, Bool.not_true, Bool.or_self, Bool.false_eq_true,
      if_false]
    have := counts_processHunks_nofull [] [] f.hunks 0 ⟨[], [], 0, 0⟩ 1 1 hwf (by omega) (by omega)
    constructor
    · rw [this.1]
      simp [leftCount]
    · rw [this.2]
      simp [rightCount]

/-- Witness for C2: a single well-formed hunk over three-line files. -/
theorem visualRowCompleteness_witness :
    leftCount (buildVisualRows
        ⟨some "f".toList, some "f".toList, .modified,
          [⟨"@@ -1,3 +1,3 @@".toList, 1, 3, 1, 3,
            [⟨.context, "a".toList, some 1, some 1⟩,
             ⟨.removed, "b".toList, some 2, none⟩,
             ⟨.added, "x".toList, none, some 2⟩,
             ⟨.context, "c".toList, some 3, some 3⟩]⟩]⟩
        (some ["a".toList, "b".toList, "c".toList])
        (some ["a".toList, "x".toList, "c".toList])).rows
      = (["a".toList, "b".toList, "c".toList] : List Str).length
    ∧ rightCount (buildVisualRows
        ⟨some "f".toList, some "f".toList, .modified,
          [⟨"@@ -1,3 +1,3 @@".toList, 1, 3, 1, 3,
            [⟨.context, "a".toList, some 1, some 1⟩,
             ⟨.removed, "b".toList, some 2, none⟩,
             ⟨.added, "x".toList, none, some 2⟩,
             ⟨.context, "c".toList, some 3, some 3⟩]⟩]⟩
        (some ["a".toList, "b".toList, "c".toList])
        (some ["a".toList, "x".toList, "c".toList])).rows
      = (["a".toList, "x".toList, "c".toList] : List Str).length :=
  visualRowCompleteness ["a".toList, "b".toList, "c".toList]
    ["a".toList, "x".toList, "c".toList]
    ⟨some "f".toList, some "f".toList, .modified,
      [⟨"@@ -1,3 +1,3 @@".toList, 1, 3, 1, 3,
        [⟨.context, "a".toList, some 1, some 1⟩,
         ⟨.removed, "b".toList, some 2, none⟩,
         ⟨.added, "x".toList, none, some 2⟩,
         ⟨.context, "c".toList, some 3, some 3⟩]⟩]⟩
    (by simp only [hunksWF]; decide)

theorem natDigitsRev_eq_digits : ∀ (f n : Nat), n ≤ f → natDigitsRev f n = Nat.digits 10 n := by
  intro f
  induction f with
  | zero =>
    intro n hn
    have : n = 0 := by omega
    subst this
    simp [natDigitsRev]
  | succ f ih =>
    intro n hn
    by_cases h0 : n = 0
    · subst h0
      simp [natDigitsRev]
    · rw [natDigitsRev, if_neg h0, Nat.digits_def' (by norm_num : 1 < 10) (Nat.pos_of_ne_zero h0)]
      have : n / 10 ≤ f := by
        have := Nat.div_lt_self (Nat.pos_of_ne_zero h0) (by norm_num : 1 < 10)
        omega
      rw [ih (n / 10) this]

theorem natToStr_eq (n : Nat) :
    natToStr n = if n = 0 then ['0'] else (Nat.digits 10 n).reverse.map digitCh := by
  unfold natToStr
  rw [natDigitsRev_eq_digits n n (le_refl n)]

theorem digitCh_isDigit (d : Nat) (hd : d < 10) : (digitCh d).isDigit = true := by
  interval_cases d <;> decide

theorem natToStr_head (n : Nat) : ∃ c t, natToStr n = c :: t ∧ c.isDigit = true := by
  rw [natToStr_eq]
  split_ifs with h
  · exact ⟨'0', [], rfl, by decide⟩
  · have hne : Nat.digits 10 n ≠ [] := Nat.digits_ne_nil_iff_ne_zero.mpr h
    rcases hrev : (Nat.digits 10 n).reverse with - | ⟨d, ds⟩
    · exact absurd (by simpa using congrArg List.reverse hrev) hne
    · refine ⟨digitCh d, ds.map digitCh, by simp [hrev], ?_⟩
      have hd : d ∈ Nat.digits 10 n := by
        rw [← List.mem_reverse, hrev]
        simp
      exact digitCh_isDigit d (Nat.digits_lt_base (by norm_num) hd)

theorem digit_ne_f (c : Char) (h : c.isDigit = true) : ('f' == c) = false := by
  cases hc : ('f' == c)
  · rfl
  · have : 'f' = c := beq_iff_eq.mp hc
    rw [← this] at h
    exact absurd h (by decide)

theorem isGapRowId_hunk (tag : String) (hi i : Nat)
    (htag : tag = "context-" ∨ tag = "change-" ∨ tag = "removed-" ∨ tag = "added-") :
    isGapRowId (hunkRowId tag hi i) = false := by
  obtain ⟨c, t, heq, hdig⟩ := natToStr_head hi
  have hf := digit_ne_f c hdig
  rcases htag with rfl | rfl | rfl | rfl <;>
    simp [isGapRowId, hunkRowId, heq, List.isPrefixOf, hf]

theorem gapInv_pushContextRow (st : BuildSt) (id c : Str) (o n : Nat) (hinv : gapInv st) :
    gapInv (pushContextRow st id c o n) := by
  constructor
  · intro r hr
    rcases List.mem_append.mp hr with hr | hr
    · exact hinv.1 r hr
    · simp only [List.mem_singleton] at hr
      subst hr
      intro _
      exact ⟨rfl, rfl⟩
  · exact hinv.2

theorem gapInv_gapStep_balanced (so sn : List Str) (o1 n1 c : Int) (st : BuildSt) (off : Nat)
    (hinv : gapInv st) : gapInv (gapStep so sn o1 n1 c c st off) := by
  unfold gapStep
  by_cases hc : (off : Int) < c
  · rw [if_pos ⟨hc, hc⟩]
    exact gapInv_pushContextRow _ _ _ _ _ hinv
  · rw [if_neg (fun hand => hc hand.1), if_neg hc, if_neg hc]
    exact hinv

theorem gapInv_foldl (f : BuildSt → Nat → BuildSt)
    (hstep : ∀ st x, gapInv st → gapInv (f st x)) :
    ∀ (l : List Nat) (st : BuildSt), gapInv st → gapInv (List.foldl f st l) := by
  intro l
  induction l with
  | nil => intro st h; exact h
  | cons x xs ih => intro st h; exact ih (f st x) (hstep st x h)

theorem gapInv_pushGapLines_balanced (so sn : List Str) (st : BuildSt) (o1 o2 n1 n2 : Int)
    (hbal : o2 - o1 = n2 - n1) (hinv : gapInv st) :
    gapInv (pushGapLines so sn st o1 o2 n1 n2) := by
  unfold pushGapLines
  split_ifs with hg
  · exact hinv
  · have hcc : max 0 (n2 - n1 + 1) = max 0 (o2 - o1 + 1) := by omega
    rw [hcc]
    exact gapInv_foldl _ (fun st x h => gapInv_gapStep_balanced so sn o1 n1 _ st x h) _ st hinv

theorem gapInv_hunkCtxStep (hi i : Nat) (l : DiffLine) (st : BuildSt) (hinv : gapInv st) :
    gapInv (hunkCtxStep hi i l st) := by
  constructor
  · intro r hr
    rcases List.mem_append.mp hr with hr | hr
    · exact hinv.1 r hr
    · simp only [List.mem_singleton] at hr
      subst hr
      intro hgap
      rw [isGapRowId_hunk "context-" hi i (Or.inl rfl)] at hgap
      exact absurd hgap (by simp)
  · exact hinv.2

theorem gapInv_hunkChangeStep (hi i : Nat) (a b : DiffLine) (st : BuildSt) (hinv : gapInv st) :
    gapInv (hunkChangeStep hi i a b st) := by
  constructor
  · intro r hr
    rcases List.mem_append.mp hr with hr | hr
    · exact hinv.1 r hr
    · simp only [List.mem_singleton] at hr
      subst hr
      intro hgap
      rw [isGapRowId_hunk "change-" hi i (Or.inr (Or.inl rfl))] at hgap
      exact absurd hgap (by simp)
  · intro c hc
    rcases List.mem_append.mp hc with hc | hc
    · exact hinv.2 c hc
    · simp only [List.mem_singleton] at hc
      subst hc
      exact isGapRowId_hunk "change-" hi i (Or.inr (Or.inl rfl))

theorem gapInv_hunkRemovedStep (hi i : Nat) (l : DiffLine) (st : BuildSt) (hinv : gapInv st) :
    gapInv (hunkRemovedStep hi i l st) := by
  constructor
  · intro r hr
    rcases List.mem_append.mp hr with hr | hr
    · exact hinv.1 r hr
    · simp only [List.mem_singleton] at hr
      subst hr
      intro hgap
      rw [isGapRowId_hunk "removed-" hi i (Or.inr (Or.inr (Or.inl rfl)))] at hgap
      exact absurd hgap (by simp)
  · intro c hc
    rcases List.mem_append.mp hc with hc | hc
    · exact hinv.2 c hc
    · simp only [List.mem_singleton] at hc
      subst hc
      exact isGapRowId_hunk "removed-" hi i (Or.inr (Or.inr (Or.inl rfl)))

theorem gapInv_hunkAddedStep (hi i : Nat) (l : DiffLine) (st : BuildSt) (hinv : gapInv st) :
    gapInv (hunkAddedStep hi i l st) := by
  constructor
  · intro r hr
    rcases List.mem_append.mp hr with hr | hr
    · exact hinv.1 r hr
    · simp only [List.mem_singleton] at hr
      subst hr
      intro hgap
      rw [isGapRowId_hunk "added-" hi i (Or.inr (Or.inr (Or.inr rfl)))] at hgap
      exact absurd hgap (by simp)
  · intro c hc
    rcases List.mem_append.mp hc with hc | hc
    · exact hinv.2 c hc
    · simp only [List.mem_singleton] at hc
      subst hc
      exact isGapRowId_hunk "added-" hi i (Or.inr (Or.inr (Or.inr rfl)))

theorem gapInv_walkHunk (hi : Nat) : ∀ (i : Nat) (ls : List DiffLine) (st : BuildSt),
    gapInv st → gapInv (walkHunk hi i ls st) := by
  intro i ls st hinv
  induction i, ls, st using walkHunk.induct hi with
  | case1 i st => exact hinv
  | case2 i l st h => rw [walkHunk, if_pos h]; exact gapInv_hunkCtxStep hi i l st hinv
  | case3 i l st h1 h2 =>
    rw [walkHunk, if_neg h1, if_pos h2]
    exact gapInv_hunkRemovedStep hi i l st hinv
  | case4 i l st h1 h2 =>
    rw [walkHunk, if_neg h1, if_neg h2]
    exact gapInv_hunkAddedStep hi i l st hinv
  | case5 i l nxt rest st h ih =>
    rw [walkHunk, if_pos h]
    exact ih (gapInv_hunkCtxStep hi i l st hinv)
  | case6 i l nxt rest st h1 h2 ih =>
    rw [walkHunk, if_neg h1, if_pos h2]
    exact ih (gapInv_hunkChangeStep hi i l nxt st hinv)
  | case7 i l nxt rest st h1 h2 h3 ih =>
    rw [walkHunk, if_neg h1, if_neg h2, if_pos h3]
    exact ih (gapInv_hunkChangeStep hi i nxt l st hinv)
  | case8 i l nxt rest st h1 h2 h3 h4 ih =>
    rw [walkHunk, if_neg h1, if_neg h2, if_neg h3, if_pos h4]
    exact ih (gapInv_hunkRemovedStep hi i l st hinv)
  | case9 i l nxt rest st h1 h2 h3 h4 ih =>
    rw [walkHunk, if_neg h1, if_neg h2, if_neg h3, if_neg h4]
    exact ih (gapInv_hunkAddedStep hi i l st hinv)

theorem gapInv_processHunks (so sn : List Str) (M N : Nat) (hasFull : Bool) :
    ∀ (hunks : List DiffHunk) (hi : Nat) (st : BuildSt) (no nn : Int),
      gapsBalanced M N no nn hunks → gapInv st →
      gapInv (if hasFull then
          pushGapLines so sn (processHunks so sn hasFull hi hunks (st, no, nn)).1
            (processHunks so sn hasFull hi hunks (st, no, nn)).2.1 M
            (processHunks so sn hasFull hi hunks (st, no, nn)).2.2 N
        else (processHunks so sn hasFull hi hunks (st, no, nn)).1) := by
  intro hunks
  induction hunks with
  | nil =>
    intro hi st no nn hbal hinv
    simp only [processHunks]
    split_ifs with hful
    · exact gapInv_pushGapLines_balanced so sn st no M nn N hbal hinv
    · exact hinv
  | cons h rest ih =>
    intro hi st no nn hbal hinv
    obtain ⟨hb1, hrest⟩ := hbal
    rcases Bool.eq_false_or_eq_true hasFull with hf | hf
    · subst hf
      simp only [processHunks, if_true]
      have hst1 : gapInv (pushGapLines so sn st no ((h.oldStart : Int) - 1) nn
          ((h.newStart : Int) - 1)) :=
        gapInv_pushGapLines_balanced so sn st no _ nn _ (by omega) hinv
      have hst2 := gapInv_walkHunk hi 0 h.lines _ hst1
      simpa using ih (hi + 1) _ ((h.oldStart : Int) + h.oldLines)
        ((h.newStart : Int) + h.newLines) hrest hst2
    · subst hf
      simp only [processHunks, Bool.false_eq_true, if_false]
      simpa using ih (hi + 1) (walkHunk hi 0 h.lines st)
        ((h.oldStart : Int) + h.oldLines) ((h.newStart : Int) + h.newLines) hrest
        (gapInv_walkHunk hi 0 h.lines st hinv)

/-- Counterexample for C8 as stated: with full contents supplied and an
unbalanced leading gap (two old lines, one new line), the builder emits a
gap row `removed-full-2` whose left cell is removed, not context. -/
theorem gapRowsCounterexample :
    ¬ (∀ r ∈ (buildVisualRows gapCexFile
          (some ["o1".toList, "o2".toList]) (some ["n1".toList])).rows,
        isGapRowId r.rowId = true → r.left.isContext = true ∧ r.right.isContext = true) := by
  decide

/-- C8 (amended): when every gap spans equally many old and new lines —
which holds for any hunk list consistent with an actual diff — all gap
rows are context on both sides, and no connector originates from a gap
row. -/
theorem gapRowsContextWhenBalanced (oldL newL : List Str) (f : DiffFile)
    (hbal : gapsBalanced oldL.length newL.length 1 1 f.hunks) :
    (∀ r ∈ (buildVisualRows f (some oldL) (some newL)).rows,
        isGapRowId r.rowId = true → r.left.isContext = true ∧ r.right.isContext = true)
      ∧ (∀ c ∈ (buildVisualRowsRaw f (some oldL) (some newL)).connectors,
        isGapRowId c.startRowId = false) := by
  have hinv : gapInv (buildVisualRowsRaw f (some oldL) (some newL)) := by
    unfold buildVisualRowsRaw
    have h0 : gapInv ⟨[], [], 0, 0⟩ := ⟨by simp, by simp⟩
    have := gapInv_processHunks oldL newL oldL.length newL.length
      (!(List.isEmpty oldL) || !(List.isEmpty newL)) f.hunks 0 ⟨[], [], 0, 0⟩ 1 1 hbal h0
    rcases Bool.eq_false_or_eq_true (!(List.isEmpty oldL) || !(List.isEmpty newL)) with hf | hf
    · rw [hf, if_pos rfl] at this
      simp only [Option.getD_some, hf, if_pos]
      exact this
    · rw [hf] at this
      simp only [Bool.false_eq_true, if_false] at this
      simp only [Option.getD_some, hf, Bool.false_eq_true, if_false]
      exact this
  exact ⟨fun r hr => hinv.1 r hr, fun c hc => hinv.2 c hc⟩

/-- Witness for C8: a balanced one-line gap before an empty hunk yields a
single context gap row. -/
theorem gapRowsContextWhenBalanced_witness :
    (⟨gapCtxRowId 1 1,
        .context ⟨.context, "a".toList, some 1, some 1⟩,
        .context ⟨.context, "a".toList, some 1, some 1⟩ none⟩ : VisualRow).left.isContext = true
      ∧ (⟨gapCtxRowId 1 1,
        .context ⟨.context, "a".toList, some 1, some 1⟩,
        .context ⟨.context, "a".toList, some 1, some 1⟩ none⟩ : VisualRow).right.isContext = true :=
  (gapRowsContextWhenBalanced ["a".toList] ["b".toList]
      ⟨some "f".toList, some "f".toList, .modified, [⟨"@@".toList, 2, 0, 2, 0, []⟩]⟩
      (by simp only [gapsBalanced]; decide)).1
    ⟨gapCtxRowId 1 1,
      .context ⟨.context, "a".toList, some 1, some 1⟩,
      .context ⟨.context, "a".toList, some 1, some 1⟩ none⟩
    (by decide) (by decide)

/-- C1 (amended): the two sides' visual positions for a both-real row agree
whenever the left-minus-right running balance at that row equals the
balance at the scroll row, and the scroll row is itself both-real or the
scroll sits exactly on a row boundary.  In particular the row at the
scroll index itself is always aligned. -/
theorem analyticalAlignmentAtScrollRow (rows : List VisualRow) (st : ℚ) (j : Nat)
    (hj : j < rows.length)
    (hlj : (rows.getD j dummyRow).left.isSpacer = false)
    (hrj : (rows.getD j dummyRow).right.isSpacer = false)
    (hbal : ((deriveSides rows).leftRunning.getD j 0 : ℚ)
        - ((deriveSides rows).rightRunning.getD j 0 : ℚ)
      = ((deriveSides rows).leftRunning.getD (scrollIdx rows st) 0 : ℚ)
        - ((deriveSides rows).rightRunning.getD (scrollIdx rows st) 0 : ℚ))
    (hidx : ((rows.getD (scrollIdx rows st) dummyRow).left.isSpacer = false
          ∧ (rows.getD (scrollIdx rows st) dummyRow).right.isSpacer = false)
        ∨ scrollFrac rows st = 0) :
    visualPosLeft rows (deriveSides rows).leftRunning (deriveSides rows).rightRunning j st
      = visualPosRight rows (deriveSides rows).leftRunning (deriveSides rows).rightRunning j st := by
  have hne : ¬ rows.length = 0 := by omega
  unfold visualPosLeft visualPosRight computeOffsets
  rw [if_neg hne]
  simp only
  rcases hidx with ⟨hl, hr⟩ | hfrac
  · rw [if_pos hl, if_pos hr]
    linear_combination ROW_HEIGHT * hbal
  · rw [hfrac]
    simp only [zero_mul, ite_self]
    linear_combination ROW_HEIGHT * hbal

/-- C1 counterexample: at scroll 0 the context row (index 1) of
`alignCexFile` is real on both sides yet sits 24 pixels lower on the
right pane than on the left. -/
theorem analyticalAlignmentCounterexample :
    (((buildVisualRows alignCexFile none none).rows.getD 1 dummyRow).left.isSpacer = false)
    ∧ (((buildVisualRows alignCexFile none none).rows.getD 1 dummyRow).right.isSpacer = false)
    ∧ visualPosLeft (buildVisualRows alignCexFile none none).rows
        (deriveSides (buildVisualRows alignCexFile none none).rows).leftRunning
        (deriveSides (buildVisualRows alignCexFile none none).rows).rightRunning 1 0
      ≠ visualPosRight (buildVisualRows alignCexFile none none).rows
        (deriveSides (buildVisualRows alignCexFile none none).rows).leftRunning
        (deriveSides (buildVisualRows alignCexFile none none).rows).rightRunning 1 0 := by
  refine ⟨by decide, by decide, ?_⟩
  have hlr : (deriveSides (buildVisualRows alignCexFile none none).rows).leftRunning
      = [0, 0] := by decide
  have hrr : (deriveSides (buildVisualRows alignCexFile none none).rows).rightRunning
      = [0, 1] := by decide
  have hlen : (buildVisualRows alignCexFile none none).rows.length = 2 := by decide
  have hids : scrollIdx (buildVisualRows alignCexFile none none).rows 0 = 0 := by
    unfold scrollIdx
    rw [hlen]
    norm_num
  have hfrac : scrollFrac (buildVisualRows alignCexFile none none).rows 0 = 0 := by
    unfold scrollFrac
    rw [hids]
    norm_num
  unfold visualPosLeft visualPosRight computeOffsets
  rw [if_neg (by rw [hlen]; norm_num)]
  simp only [hids, hfrac, hlr, hrr, zero_mul, ite_self, List.getD]
  norm_num [ROW_HEIGHT]

/-- C1 witness: on the same file, at scroll 24 the scroll row is row 1
itself, which is real on both sides, so the theorem applies with a
reflexive balance hypothesis. -/
theorem analyticalAlignmentAtScrollRow_witness :
    visualPosLeft (buildVisualRows alignCexFile none none).rows
      (deriveSides (buildVisualRows alignCexFile none none).rows).leftRunning
      (deriveSides (buildVisualRows alignCexFile none none).rows).rightRunning 1 24
    = visualPosRight (buildVisualRows alignCexFile none none).rows
      (deriveSides (buildVisualRows alignCexFile none none).rows).leftRunning
      (deriveSides (buildVisualRows alignCexFile none none).rows).rightRunning 1 24 := by
  have hlen : (buildVisualRows alignCexFile none none).rows.length = 2 := by decide
  have hidx : scrollIdx (buildVisualRows alignCexFile none none).rows 24 = 1 := by
    unfold scrollIdx
    rw [hlen]
    norm_num [ROW_HEIGHT]
  refine analyticalAlignmentAtScrollRow _ 24 1 (by decide) (by decide) (by decide) ?_ ?_
  · rw [hidx]
  · rw [hidx]
    exact Or.inl ⟨by decide, by decide⟩

theorem leftProj_append (xs ys : List VisualRow) :
    leftProj (xs ++ ys) = leftProj xs ++ leftProj ys := by
  simp [leftProj]

theorem rightProj_append (xs ys : List VisualRow) :
    rightProj (xs ++ ys) = rightProj xs ++ rightProj ys := by
  simp [rightProj]

theorem colsRel_pushContextRow (b : BuildSt) (c : ColsSt) (id ct : Str) (o n : Nat)
    (hr : colsRel b c) :
    colsRel (pushContextRow b id ct o n) (colsPushContextRow c id ct o n) := by
  obtain ⟨h1, h2, h3, h4, h5⟩ := hr
  refine ⟨?_, ?_, ?_, ?_, ?_⟩ <;>
    simp [pushContextRow, colsPushContextRow, leftProj_append, rightProj_append,
      leftProj, rightProj, h1, h2, h3, h4, h5]

theorem colsRel_pushRemovedRow (b : BuildSt) (c : ColsSt) (id ct : Str) (o : Nat)
    (hr : colsRel b c) :
    colsRel (pushRemovedRow b id ct o) (colsPushRemovedRow c id ct o) := by
  obtain ⟨h1, h2, h3, h4, h5⟩ := hr
  refine ⟨?_, ?_, ?_, ?_, ?_⟩ <;>
    simp [pushRemovedRow, colsPushRemovedRow, leftProj_append, rightProj_append,
      leftProj, rightProj, h1, h2, h3, h4, h5]

theorem colsRel_pushAddedRow (b : BuildSt) (c : ColsSt) (id ct : Str) (n : Nat)
    (hr : colsRel b c) :
    colsRel (pushAddedRow b id ct n) (colsPushAddedRow c id ct n) := by
  obtain ⟨h1, h2, h3, h4, h5⟩ := hr
  refine ⟨?_, ?_, ?_, ?_, ?_⟩ <;>
    simp [pushAddedRow, colsPushAddedRow, leftProj_append, rightProj_append,
      leftProj, rightProj, h1, h2, h3, h4, h5]

theorem colsRel_gapStep (so sn : List Str) (og ng oc nc : Int) (b : BuildSt) (c : ColsSt)
    (off : Nat) (hr : colsRel b c) :
    colsRel (gapStep so sn og ng oc nc b off) (colsGapStep so sn og ng oc nc c off) := by
  unfold gapStep colsGapStep
  by_cases h1 : ((off : Int) < oc ∧ (off : Int) < nc)
  · rw [if_pos h1, if_pos h1]
    exact colsRel_pushContextRow _ _ _ _ _ _ hr
  · rw [if_neg h1, if_neg h1]
    by_cases h2 : ((off : Int) < oc)
    · rw [if_pos h2, if_pos h2]
      exact colsRel_pushRemovedRow _ _ _ _ _ hr
    · rw [if_neg h2, if_neg h2]
      by_cases h3 : ((off : Int) < nc)
      · rw [if_pos h3, if_pos h3]
        exact colsRel_pushAddedRow _ _ _ _ _ hr
      · rw [if_neg h3, if_neg h3]
        exact hr

theorem colsRel_foldl {α : Type} (f : BuildSt → α → BuildSt) (g : ColsSt → α → ColsSt)
    (hstep : ∀ b c a, colsRel b c → colsRel (f b a) (g c a)) :
    ∀ (l : List α) (b : BuildSt) (c : ColsSt), colsRel b c →
      colsRel (l.foldl f b) (l.foldl g c)
  | [], _, _, hr => hr
  | a :: rest, b, c, hr =>
    colsRel_foldl f g hstep rest (f b a) (g c a) (hstep b c a hr)

theorem colsRel_pushGapLines (so sn : List Str) (b : BuildSt) (c : ColsSt)
    (os oe ns ne : Int) (hr : colsRel b c) :
    colsRel (pushGapLines so sn b os oe ns ne) (colsPushGapLines so sn c os oe ns ne) := by
  unfold pushGapLines colsPushGapLines
  by_cases h : (oe < os ∧ ne < ns)
  · rw [if_pos h, if_pos h]
    exact hr
  · rw [if_neg h, if_neg h]
    exact colsRel_foldl _ _ (fun b c a => colsRel_gapStep so sn os ns _ _ b c a) _ b c hr

theorem colsRel_hunkCtxStep (hi i : Nat) (l : DiffLine) (b : BuildSt) (c : ColsSt)
    (hr : colsRel b c) : colsRel (hunkCtxStep hi i l b) (colsCtxStep hi i l c) := by
  obtain ⟨h1, h2, h3, h4, h5⟩ := hr
  refine ⟨?_, ?_, ?_, ?_, ?_⟩ <;>
    simp [hunkCtxStep, colsCtxStep, leftProj_append, rightProj_append,
      leftProj, rightProj, h1, h2, h3, h4, h5]

theorem colsRel_hunkChangeStep (hi i : Nat) (lL lR : DiffLine) (b : BuildSt) (c : ColsSt)
    (hr : colsRel b c) : colsRel (hunkChangeStep hi i lL lR b) (colsChangeStep hi i lL lR c) := by
  obtain ⟨h1, h2, h3, h4, h5⟩ := hr
  refine ⟨?_, ?_, ?_, ?_, ?_⟩ <;>
    simp [hunkChangeStep, colsChangeStep, leftProj_append, rightProj_append,
      leftProj, rightProj, h1, h2, h3, h4, h5]

theorem colsRel_hunkRemovedStep (hi i : Nat) (l : DiffLine) (b : BuildSt) (c : ColsSt)
    (hr : colsRel b c) : colsRel (hunkRemovedStep hi i l b) (colsRemovedStep hi i l c) := by
  obtain ⟨h1, h2, h3, h4, h5⟩ := hr
  refine ⟨?_, ?_, ?_, ?_, ?_⟩ <;>
    simp [hunkRemovedStep, colsRemovedStep, leftProj_append, rightProj_append,
      leftProj, rightProj, h1, h2, h3, h4, h5]

theorem colsRel_hunkAddedStep (hi i : Nat) (l : DiffLine) (b : BuildSt) (c : ColsSt)
    (hr : colsRel b c) : colsRel (hunkAddedStep hi i l b) (colsAddedStep hi i l c) := by
  obtain ⟨h1, h2, h3, h4, h5⟩ := hr
  refine ⟨?_, ?_, ?_, ?_, ?_⟩ <;>
    simp [hunkAddedStep, colsAddedStep, leftProj_append, rightProj_append,
      leftProj, rightProj, h1, h2, h3, h4, h5]

theorem colsRel_walkHunk (hi : Nat) (i : Nat) (ls : List DiffLine) (b : BuildSt) :
    ∀ c : ColsSt, colsRel b c → colsRel (walkHunk hi i ls b) (colsWalkHunk hi i ls c) := by
  induction i, ls, b using walkHunk.induct hi with
  | case1 i st => exact fun c hr => hr
  | case2 i l st h =>
    intro c hr
    simp only [walkHunk, colsWalkHunk]
    rw [if_pos h, if_pos h]
    exact colsRel_hunkCtxStep hi i l st c hr
  | case3 i l st h1 h2 =>
    intro c hr
    simp only [walkHunk, colsWalkHunk]
    rw [if_neg h1, if_neg h1, if_pos h2, if_pos h2]
    exact colsRel_hunkRemovedStep hi i l st c hr
  | case4 i l st h1 h2 =>
    intro c hr
    simp only [walkHunk, colsWalkHunk]
    rw [if_neg h1, if_neg h1, if_neg h2, if_neg h2]
    exact colsRel_hunkAddedStep hi i l st c hr
  | case5 i l nxt rest st h ih =>
    intro c hr
    simp only [walkHunk, colsWalkHunk]
    rw [if_pos h, if_pos h]
    exact ih _ (colsRel_hunkCtxStep hi i l st c hr)
  | case6 i l nxt rest st h1 h2 ih =>
    intro c hr
    simp only [walkHunk, colsWalkHunk]
    rw [if_neg h1, if_neg h1, if_pos h2, if_pos h2]
    exact ih _ (colsRel_hunkChangeStep hi i l nxt st c hr)
  | case7 i l nxt rest st h1 h2 h3 ih =>
    intro c hr
    simp only [walkHunk, colsWalkHunk]
    rw [if_neg h1, if_neg h1, if_neg h2, if_neg h2, if_pos h3, if_pos h3]
    exact ih _ (colsRel_hunkChangeStep hi i nxt l st c hr)
  | case8 i l nxt rest st h1 h2 h3 h4 ih =>
    intro c hr
    simp only [walkHunk, colsWalkHunk]
    rw [if_neg h1, if_neg h1, if_neg h2, if_neg h2, if_neg h3, if_neg h3, if_pos h4, if_pos h4]
    exact ih _ (colsRel_hunkRemovedStep hi i l st c hr)
  | case9 i l nxt rest st h1 h2 h3 h4 ih =>
    intro c hr
    simp only [walkHunk, colsWalkHunk]
    rw [if_neg h1, if_neg h1, if_neg h2, if_neg h2, if_neg h3, if_neg h3, if_neg h4, if_neg h4]
    exact ih _ (colsRel_hunkAddedStep hi i l st c hr)

theorem colsRel_processHunks (so sn : List Str) (hf : Bool) :
    ∀ (hs : List DiffHunk) (hi : Nat) (b : BuildSt) (c : ColsSt) (no nn : Int),
      colsRel b c →
      colsRel (processHunks so sn hf hi hs (b, no, nn)).1
          (colsProcessHunks so sn hf hi hs (c, no, nn)).1
        ∧ (processHunks so sn hf hi hs (b, no, nn)).2
          = (colsProcessHunks so sn hf hi hs (c, no, nn)).2
  | [], _, _, _, _, _, hr => ⟨hr, rfl⟩
  | h :: rest, hi, b, c, no, nn, hr => by
    simp only [processHunks, colsProcessHunks]
    refine colsRel_processHunks so sn hf rest (hi + 1) _ _ _ _ ?_
    refine colsRel_walkHunk hi 0 h.lines _ _ ?_
    rcases Bool.eq_false_or_eq_true hf with hb | hb <;> subst hb
    · rw [if_pos rfl, if_pos rfl]
      exact colsRel_pushGapLines so sn b c no ((h.oldStart : Int) - 1) nn ((h.newStart : Int) - 1) hr
    · rw [if_neg (by simp), if_neg (by simp)]
      exact hr

theorem colsRel_raw (f : DiffFile) (o n : Option (List Str)) :
    colsRel (buildVisualRowsRaw f o n) (buildColumnsRaw f o n) := by
  have h0 : colsRel (⟨[], [], 0, 0⟩ : BuildSt) (⟨[], [], [], 0, 0⟩ : ColsSt) :=
    ⟨rfl, rfl, rfl, rfl, rfl⟩
  have hp := colsRel_processHunks (o.getD []) (n.getD [])
      (!(o.getD []).isEmpty || !(n.getD []).isEmpty) f.hunks 0 ⟨[], [], 0, 0⟩
      ⟨[], [], [], 0, 0⟩ 1 1 h0
  simp only [buildVisualRowsRaw, buildColumnsRaw]
  by_cases hb : (!(o.getD []).isEmpty || !(n.getD []).isEmpty) = true
  · rw [if_pos hb, if_pos hb, ← hp.2]
    exact colsRel_pushGapLines _ _ _ _ _ _ _ _ hp.1
  · rw [if_neg hb, if_neg hb]
    exact hp.1

/-- C3 counterexample: on a hunk list whose rewinding gaps emit two rows
with the same rowId, the two builders' grouping passes produce different
grouped connector lists. -/
theorem buildersGroupedConnectorsCounterexample :
    (buildColumns colsCexFile (some colsCexOld) (some colsCexNew)).connectors
      ≠ (buildVisualRows colsCexFile (some colsCexOld) (some colsCexNew)).connectors := by
  decide

/-- C3 (amended): `buildColumns` produces exactly the non-spacer left and
right projections of `buildVisualRows`' unified rows, and the two builders'
raw (ungrouped) connector lists coincide; only the grouping pass can
diverge. -/
theorem buildersProjectionAgreement (f : DiffFile) (o n : Option (List Str)) :
    (buildColumns f o n).leftItems = leftProj (buildVisualRows f o n).rows
    ∧ (buildColumns f o n).rightItems = rightProj (buildVisualRows f o n).rows
    ∧ (buildColumnsRaw f o n).connectors = (buildVisualRowsRaw f o n).connectors := by
  have h := colsRel_raw f o n
  exact ⟨h.1, h.2.1, h.2.2.1⟩

theorem withEnd_self (t : ConnectorMeta) : t.withEnd t.endRowId = t := by
  cases t <;> rfl

theorem withEnd_end (t : ConnectorMeta) (e : Str) : (t.withEnd e).endRowId = e := by
  cases t <;> rfl

theorem withEnd_tag (t : ConnectorMeta) (e : Str) : connTag (t.withEnd e) = connTag t := by
  cases t <;> rfl

theorem withEnd_anchor (t : ConnectorMeta) (e : Str) : connAnchor (t.withEnd e) = connAnchor t := by
  cases t <;> rfl

theorem withEnd_withEnd (t : ConnectorMeta) (e e' : Str) :
    (t.withEnd e).withEnd e' = t.withEnd e' := by
  cases t <;> rfl

theorem mergeTry_eq_withEnd (t c m : ConnectorMeta) (h : mergeTry t c = some m) :
    m = t.withEnd c.endRowId := by
  cases t <;> cases c <;> simp_all [mergeTry, ConnectorMeta.withEnd, ConnectorMeta.endRowId] <;>
    (split_ifs at h <;> simp_all)

theorem mergeTry_isSome_iff (t c : ConnectorMeta) :
    (mergeTry t c).isSome = true ↔ connTag t = connTag c ∧ connAnchor t = connAnchor c := by
  cases t <;> cases c <;>
    simp_all [mergeTry, connTag, connAnchor] <;>
    (try split_ifs <;> simp_all) <;> (try exact eq_comm)

theorem mergeTry_congr (t c x : ConnectorMeta) (h : (mergeTry t c).isSome = true) :
    (mergeTry (t.withEnd c.endRowId) x).isSome = (mergeTry c x).isSome := by
  rw [mergeTry_isSome_iff] at h
  rw [Bool.eq_iff_iff, mergeTry_isSome_iff, mergeTry_isSome_iff,
    withEnd_tag, withEnd_anchor, h.1, h.2]

theorem connAdjacentB_congr (rows : List VisualRow) (t c x : ConnectorMeta)
    (h : (mergeTry t c).isSome = true) :
    connAdjacentB rows (t.withEnd c.endRowId) x = connAdjacentB rows c x := by
  unfold connAdjacentB
  rw [withEnd_end, mergeTry_congr t c x h]

theorem chunkBy_cons (R : ConnectorMeta → ConnectorMeta → Bool) (c : ConnectorMeta)
    (rest : List ConnectorMeta) :
    ∃ tl chs, chunkBy R (c :: rest) = (c :: tl) :: chs := by
  cases rest with
  | nil => exact ⟨[], [], rfl⟩
  | cons b rs =>
    simp only [chunkBy]
    cases h : chunkBy R (b :: rs) with
    | nil => exact ⟨[], [], rfl⟩
    | cons ch chs =>
      by_cases hR : R c b = true
      · exact ⟨ch, chs, by simp [hR]⟩
      · exact ⟨[], ch :: chs, by simp [hR]⟩

theorem chunkBy_head_congr (R : ConnectorMeta → ConnectorMeta → Bool) (t' c : ConnectorMeta)
    (rest : List ConnectorMeta) (hcong : ∀ x, R t' x = R c x) :
    ∃ tl chs, chunkBy R (c :: rest) = (c :: tl) :: chs
      ∧ chunkBy R (t' :: rest) = (t' :: tl) :: chs := by
  cases rest with
  | nil => exact ⟨[], [], rfl, rfl⟩
  | cons b rs =>
    simp only [chunkBy]
    cases h : chunkBy R (b :: rs) with
    | nil => exact ⟨[], [], rfl, rfl⟩
    | cons ch chs =>
      rw [hcong b]
      by_cases hR : R c b = true
      · exact ⟨ch, chs, by simp [hR], by simp [hR]⟩
      · exact ⟨[], ch :: chs, by simp [hR], by simp [hR]⟩

theorem groupRec_fold_bridge (rows : List VisualRow) :
    ∀ (conns : List ConnectorMeta) (pre : List ConnectorMeta) (t : ConnectorMeta),
      conns.foldl (groupStep rows) (pre ++ [t]) = pre ++ groupRec rows (some t) conns := by
  intro conns
  induction conns with
  | nil => intro pre t; simp [groupRec]
  | cons c rest ih =>
    intro pre t
    rw [List.foldl_cons]
    by_cases hcons : rowIndexOf rows c.startRowId = rowIndexOf rows t.endRowId + 1
    · cases hm : mergeTry t c with
      | some m =>
        have hstep : groupStep rows (pre ++ [t]) c = pre ++ [m] := by
          simp only [groupStep, List.getLast?_concat, hm]
          rw [if_pos hcons, List.dropLast_concat]
        have hA : connAdjacentB rows t c = true := by
          simp [connAdjacentB, hcons, hm]
        rw [hstep, ih pre m]
        simp only [groupRec, hA, if_true]
        rw [mergeTry_eq_withEnd t c m hm]
      | none =>
        have hstep : groupStep rows (pre ++ [t]) c = (pre ++ [t]) ++ [c] := by
          simp only [groupStep, List.getLast?_concat, hm]
          rw [if_pos hcons]
        have hA : connAdjacentB rows t c = false := by
          simp [connAdjacentB, hm]
        rw [hstep, ih (pre ++ [t]) c]
        simp only [groupRec, hA, Bool.false_eq_true, if_false, List.append_assoc,
          List.singleton_append]
    · have hstep : groupStep rows (pre ++ [t]) c = (pre ++ [t]) ++ [c] := by
        simp only [groupStep, List.getLast?_concat]
        rw [if_neg hcons]
      have hA : connAdjacentB rows t c = false := by
        simp [connAdjacentB, hcons]
      rw [hstep, ih (pre ++ [t]) c]
      simp only [groupRec, hA, Bool.false_eq_true, if_false, List.append_assoc,
        List.singleton_append]

theorem groupRec_eq_chunks (rows : List VisualRow) :
    ∀ (conns : List ConnectorMeta) (t : ConnectorMeta),
      groupRec rows (some t) conns
        = (chunkBy (connAdjacentB rows) (t :: conns)).map mergeChunk := by
  intro conns
  induction conns with
  | nil =>
    intro t
    simp [groupRec, chunkBy, mergeChunk, withEnd_self]
  | cons c rest ih =>
    intro t
    simp only [groupRec]
    by_cases hA : connAdjacentB rows t c = true
    · rw [if_pos hA]
      have hparts := hA
      simp only [connAdjacentB, Bool.and_eq_true, decide_eq_true_eq] at hparts
      have hcong : ∀ x, connAdjacentB rows (t.withEnd c.endRowId) x = connAdjacentB rows c x :=
        fun x => connAdjacentB_congr rows t c x hparts.2
      obtain ⟨tl, chs, hc1, hc2⟩ := chunkBy_head_congr (connAdjacentB rows)
        (t.withEnd c.endRowId) c rest hcong
      rw [ih (t.withEnd c.endRowId), hc2]
      simp only [chunkBy]
      rw [hc1]
      simp only [hA, if_true, List.map_cons]
      congr 1
      cases tl with
      | nil => simp [mergeChunk, List.getLastD, withEnd_withEnd, withEnd_end, withEnd_self]
      | cons x xs =>
        simp [mergeChunk, List.getLastD_cons, withEnd_withEnd, withEnd_end]
    · rw [if_neg hA]
      obtain ⟨tl, chs, hc⟩ := chunkBy_cons (connAdjacentB rows) c rest
      rw [ih c, hc]
      simp only [chunkBy]
      rw [hc]
      simp [hA, mergeChunk, withEnd_self]

theorem groupConnectors_chunks (rows : List VisualRow) (conns : List ConnectorMeta) :
    groupConnectors rows conns = (chunkBy (connAdjacentB rows) conns).map mergeChunk := by
  cases conns with
  | nil => rfl
  | cons c rest =>
    unfold groupConnectors
    rw [List.foldl_cons]
    have h1 : groupStep rows [] c = [] ++ [c] := rfl
    rw [h1, groupRec_fold_bridge rows rest [] c]
    simp only [List.nil_append]
    exact groupRec_eq_chunks rows rest c

theorem digitCh_inj (a b : Nat) (ha : a < 10) (hb : b < 10) (h : digitCh a = digitCh b) :
    a = b := by
  interval_cases a <;> interval_cases b <;> simp_all [digitCh]

theorem map_digitCh_inj : ∀ (xs ys : List Nat), (∀ x ∈ xs, x < 10) → (∀ y ∈ ys, y < 10) →
    xs.map digitCh = ys.map digitCh → xs = ys
  | [], [], _, _, _ => rfl
  | [], _ :: _, _, _, h => by simp at h
  | _ :: _, [], _, _, h => by simp at h
  | x :: xs, y :: ys, hx, hy, h => by
    simp only [List.map_cons, List.cons.injEq] at h
    have h1 := digitCh_inj x y (hx x (by simp)) (hy y (by simp)) h.1
    have h2 := map_digitCh_inj xs ys (fun a ha => hx a (by simp [ha]))
      (fun a ha => hy a (by simp [ha])) h.2
    rw [h1, h2]

theorem natToStr_inj (m n : Nat) (h : natToStr m = natToStr n) : m = n := by
  rw [natToStr_eq, natToStr_eq] at h
  have hdig : ∀ k : Nat, ¬ k = 0 →
      (if k = 0 then ['0'] else (Nat.digits 10 k).reverse.map digitCh)
        = (Nat.digits 10 k).reverse.map digitCh := by
    intro k hk; rw [if_neg hk]
  have hrev : ∀ p q : Nat, (Nat.digits 10 p).reverse.map digitCh
      = (Nat.digits 10 q).reverse.map digitCh → p = q := by
    intro p q hpq
    have hb1 : ∀ x ∈ (Nat.digits 10 p).reverse, x < 10 := by
      intro x hx
      exact Nat.digits_lt_base (by norm_num) (List.mem_reverse.mp hx)
    have hb2 : ∀ x ∈ (Nat.digits 10 q).reverse, x < 10 := by
      intro x hx
      exact Nat.digits_lt_base (by norm_num) (List.mem_reverse.mp hx)
    have := map_digitCh_inj _ _ hb1 hb2 hpq
    have hd : Nat.digits 10 p = Nat.digits 10 q := by
      have := congrArg List.reverse this
      simpa using this
    calc p = Nat.ofDigits 10 (Nat.digits 10 p) := (Nat.ofDigits_digits 10 p).symm
      _ = Nat.ofDigits 10 (Nat.digits 10 q) := by rw [hd]
      _ = q := Nat.ofDigits_digits 10 q
  by_cases hm : m = 0 <;> by_cases hn : n = 0
  · rw [hm, hn]
  · rw [if_pos hm, hdig n hn] at h
    exfalso
    have hb2 : ∀ x ∈ (Nat.digits 10 n).reverse, x < 10 := by
      intro x hx
      exact Nat.digits_lt_base (by norm_num) (List.mem_reverse.mp hx)
    have h01 : ([0] : List Nat).map digitCh = ['0'] := by decide
    have heq := map_digitCh_inj [0] (Nat.digits 10 n).reverse (by simp) hb2 (h01.trans h)
    have hd : Nat.digits 10 n = [0] := by
      have := congrArg List.reverse heq
      simpa using this.symm
    have hzero : n = 0 := by
      have hod := Nat.ofDigits_digits 10 n
      rw [hd] at hod
      simpa [Nat.ofDigits] using hod.symm
    exact hn hzero
  · rw [if_pos hn, hdig m hm] at h
    exfalso
    have hb1 : ∀ x ∈ (Nat.digits 10 m).reverse, x < 10 := by
      intro x hx
      exact Nat.digits_lt_base (by norm_num) (List.mem_reverse.mp hx)
    have h01 : ([0] : List Nat).map digitCh = ['0'] := by decide
    have heq := map_digitCh_inj (Nat.digits 10 m).reverse [0] hb1 (by simp) (h.trans h01.symm)
    have hd : Nat.digits 10 m = [0] := by
      have := congrArg List.reverse heq
      simpa using this
    have hzero : m = 0 := by
      have hod := Nat.ofDigits_digits 10 m
      rw [hd] at hod
      simpa [Nat.ofDigits] using hod.symm
    exact hm hzero
  · rw [hdig m hm, hdig n hn] at h
    exact hrev m n h

theorem hunkRowId_inj_idx (tag : String) (hi j k : Nat)
    (h : hunkRowId tag hi j = hunkRowId tag hi k) : j = k := by
  unfold hunkRowId at h
  exact natToStr_inj j k (List.append_cancel_left h)

theorem addedLines_type : ∀ (i m : Nat), ∀ l ∈ addedLines i m, l.type = .added
  | _, 0, l, hl => by simp [addedLines] at hl
  | i, m + 1, l, hl => by
    simp only [addedLines, List.mem_cons] at hl
    rcases hl with hl | hl
    · rw [hl]
    · exact addedLines_type (i + 1) m l hl

theorem addedLines_length : ∀ (i m : Nat), (addedLines i m).length = m
  | _, 0 => rfl
  | i, m + 1 => by simp [addedLines, addedLines_length (i + 1) m]

theorem walk_added (hi : Nat) : ∀ (ls : List DiffLine), (∀ l ∈ ls, l.type = .added) →
    ∀ (i : Nat) (st : BuildSt), walkHunk hi i ls st = addedWalkSpec hi i ls st
  | [], _, _, _ => rfl
  | [l], h, i, st => by
    have hl := h l (by simp)
    simp [walkHunk, addedWalkSpec, hl]
  | l :: nxt :: rest, h, i, st => by
    have hl := h l (by simp)
    have hn := h nxt (by simp)
    simp only [walkHunk, addedWalkSpec, hl, hn]
    simp only [reduceCtorEq, if_false, false_and, and_false]
    exact walk_added hi (nxt :: rest) (fun x hx => h x (by simp [List.mem_cons] at hx ⊢; tauto))
      (i + 1) (hunkAddedStep hi i l st)

theorem addedWalkSpec_closed (hi : Nat) : ∀ (ls : List DiffLine) (i : Nat) (st : BuildSt),
    (addedWalkSpec hi i ls st).rows = st.rows ++ addedRowsFrom hi st.lastOldLine i ls
      ∧ (addedWalkSpec hi i ls st).connectors
        = st.connectors ++ addedConnsFrom hi st.lastOldLine i ls
  | [], _, st => by simp [addedWalkSpec, addedRowsFrom, addedConnsFrom]
  | l :: rest, i, st => by
    have ih := addedWalkSpec_closed hi rest (i + 1) (hunkAddedStep hi i l st)
    simp only [addedWalkSpec]
    rw [ih.1, ih.2]
    simp [hunkAddedStep, addedRowsFrom, addedConnsFrom]

theorem rowIndexGo_added_absent (hi lo k : Nat) :
    ∀ (ls : List DiffLine) (i0 : Nat), k < i0 → ∀ (p best : Int),
      rowIndexGo (hunkRowId "added-" hi k) (addedRowsFrom hi lo i0 ls) p best = best
  | [], _, _, _, _ => rfl
  | l :: rest, i0, hk, p, best => by
    simp only [addedRowsFrom, rowIndexGo]
    rw [if_neg (fun hEq => by have := hunkRowId_inj_idx _ _ _ _ hEq; omega)]
    exact rowIndexGo_added_absent hi lo k rest (i0 + 1) (by omega) (p + 1) best

theorem rowIndexGo_added_found (hi lo k : Nat) :
    ∀ (ls : List DiffLine) (i0 : Nat), i0 ≤ k → k < i0 + ls.length → ∀ (best : Int),
      rowIndexGo (hunkRowId "added-" hi k) (addedRowsFrom hi lo i0 ls) (i0 : Int) best = k
  | [], i0, h1, h2, best => by simp at h2; omega
  | l :: rest, i0, h1, h2, best => by
    simp only [addedRowsFrom, rowIndexGo]
    by_cases hk : i0 = k
    · subst hk
      rw [if_pos rfl]
      exact rowIndexGo_added_absent hi lo i0 rest (i0 + 1) (by omega) ((i0 : Int) + 1) i0
    · rw [if_neg (fun hEq => hk (hunkRowId_inj_idx _ _ _ _ hEq))]
      have := rowIndexGo_added_found hi lo k rest (i0 + 1) (by omega)
        (by simp at h2 ⊢; omega) best
      rw [← this]
      norm_num

theorem rowIndexOf_added (hi lo k : Nat) (ls : List DiffLine) (hk : k < ls.length) :
    rowIndexOf (addedRowsFrom hi lo 0 ls) (hunkRowId "added-" hi k) = k := by
  unfold rowIndexOf
  have := rowIndexGo_added_found hi lo k ls 0 (by omega) (by omega) (-1)
  simpa using this

theorem connAdjacentB_addedConns (hi lo : Nat) (ls0 : List DiffLine) (i : Nat)
    (h1 : i + 1 < ls0.length) :
    connAdjacentB (addedRowsFrom hi lo 0 ls0)
      (.added (hunkRowId "added-" hi i) (hunkRowId "added-" hi i) (anchorOf lo))
      (.added (hunkRowId "added-" hi (i + 1)) (hunkRowId "added-" hi (i + 1)) (anchorOf lo))
      = true := by
  unfold connAdjacentB
  simp only [ConnectorMeta.startRowId, ConnectorMeta.endRowId]
  rw [Bool.and_eq_true]
  constructor
  · rw [decide_eq_true_eq, rowIndexOf_added hi lo (i + 1) ls0 h1,
      rowIndexOf_added hi lo i ls0 (by omega)]
    norm_num
  · simp [mergeTry]

theorem chunkBy_addedConns (hi lo : Nat) (ls0 : List DiffLine) :
    ∀ (ls : List DiffLine) (i : Nat), i + ls.length ≤ ls0.length → ls ≠ [] →
      chunkBy (connAdjacentB (addedRowsFrom hi lo 0 ls0)) (addedConnsFrom hi lo i ls)
        = [addedConnsFrom hi lo i ls]
  | [], _, _, hne => absurd rfl hne
  | [l], i, hb, _ => by simp [addedConnsFrom, chunkBy]
  | l :: nxt :: rest, i, hb, _ => by
    have hlen : i + 1 < ls0.length := by simp at hb; omega
    have ih := chunkBy_addedConns hi lo ls0 (nxt :: rest) (i + 1)
      (by simp at hb ⊢; omega) (by simp)
    have hadj := connAdjacentB_addedConns hi lo ls0 i hlen
    simp only [addedConnsFrom] at ih ⊢
    simp only [chunkBy, ih, hadj, if_true]

theorem addedConnsFrom_getLastD (hi lo : Nat) :
    ∀ (ls : List DiffLine) (i : Nat) (d : ConnectorMeta), ls ≠ [] →
      (addedConnsFrom hi lo i ls).getLastD d
        = .added (hunkRowId "added-" hi (i + ls.length - 1))
            (hunkRowId "added-" hi (i + ls.length - 1)) (anchorOf lo)
  | [], _, _, hne => absurd rfl hne
  | [l], i, d, _ => by simp [addedConnsFrom]
  | l :: nxt :: rest, i, d, _ => by
    have ih := addedConnsFrom_getLastD hi lo (nxt :: rest) (i + 1)
      (.added (hunkRowId "added-" hi i) (hunkRowId "added-" hi i) (anchorOf lo)) (by simp)
    simp only [addedConnsFrom] at ih ⊢
    rw [List.getLastD_cons, ih]
    have harith : i + 1 + (nxt :: rest).length - 1 = i + (l :: nxt :: rest).length - 1 := by
      simp
      omega
    simp only [List.length_cons] at harith ⊢
    rw [harith]

theorem mergeChunk_addedConns (hi lo : Nat) (ls : List DiffLine) (hne : ls ≠ []) :
    mergeChunk (addedConnsFrom hi lo 0 ls)
      = .added (hunkRowId "added-" hi 0) (hunkRowId "added-" hi (ls.length - 1))
          (anchorOf lo) := by
  cases ls with
  | nil => exact absurd rfl hne
  | cons l rest =>
    unfold mergeChunk
    rw [addedConnsFrom_getLastD hi lo (l :: rest) 0 defaultConn (by simp)]
    simp [addedConnsFrom, ConnectorMeta.withEnd, ConnectorMeta.endRowId]

theorem addedFile_raw (N : Nat) :
    buildVisualRowsRaw (pureAddedFile N) none none
      = addedWalkSpec 0 0 (addedLines 0 N) ⟨[], [], 0, 0⟩ := by
  simp only [buildVisualRowsRaw, pureAddedFile, Option.getD_none, List.isEmpty_nil,
    Bool.not_true, Bool.or_self, Bool.false_eq_true, if_false, processHunks]
  rw [walk_added 0 (addedLines 0 N) (addedLines_type 0 N) 0]

/-- Grouped connectors of the pure-added file: the whole run collapses
into a single added connector. -/
theorem addedFile_connectors (N : Nat) (hN : 1 ≤ N) :
    (buildVisualRows (pureAddedFile N) none none).connectors
      = [.added (hunkRowId "added-" 0 0) (hunkRowId "added-" 0 (N - 1)) none] := by
  have hne : addedLines 0 N ≠ [] := by
    intro hc
    have := addedLines_length 0 N
    rw [hc] at this
    simp at this
    omega
  have hcl := addedWalkSpec_closed 0 (addedLines 0 N) 0 ⟨[], [], 0, 0⟩
  simp only [List.nil_append] at hcl
  have hrows : (buildVisualRowsRaw (pureAddedFile N) none none).rows
      = addedRowsFrom 0 0 0 (addedLines 0 N) := by
    rw [addedFile_raw]
    exact hcl.1
  have hconns : (buildVisualRowsRaw (pureAddedFile N) none none).connectors
      = addedConnsFrom 0 0 0 (addedLines 0 N) := by
    rw [addedFile_raw]
    exact hcl.2
  show groupConnectors (buildVisualRowsRaw (pureAddedFile N) none none).rows
      (buildVisualRowsRaw (pureAddedFile N) none none).connectors = _
  rw [hrows, hconns, groupConnectors_chunks,
    chunkBy_addedConns 0 0 (addedLines 0 N) (addedLines 0 N) 0 (by omega) hne]
  simp only [List.map_cons, List.map_nil]
  rw [mergeChunk_addedConns 0 0 (addedLines 0 N) hne]
  simp [anchorOf, addedLines_length]

/-- C7: the grouping pass collapses a maximal run of consecutive raw
connectors into one connector exactly when each connector's start row index
immediately follows the previous connector's end row index and the merge
check (same kind; identical anchor for added/removed) succeeds — stated as
the fold being chunk-then-merge; and a run of N ≥ 1 consecutive added lines
with a common anchor yields exactly one grouped connector spanning the run. -/
theorem connectorGrouping :
    (∀ (rows : List VisualRow) (conns : List ConnectorMeta),
      groupConnectors rows conns = (chunkBy (connAdjacentB rows) conns).map mergeChunk)
    ∧ (∀ N : Nat, 1 ≤ N →
      (buildVisualRows (pureAddedFile N) none none).connectors
        = [.added (hunkRowId "added-" 0 0) (hunkRowId "added-" 0 (N - 1)) none]) :=
  ⟨groupConnectors_chunks, addedFile_connectors⟩

/-- C7 witness: three consecutive added lines produce the single connector
spanning rows added-0-0 through added-0-2. -/
theorem connectorGrouping_witness :
    (buildVisualRows (pureAddedFile 3) none none).connectors
      = [.added (hunkRowId "added-" 0 0) (hunkRowId "added-" 0 2) none] :=
  connectorGrouping.2 3 (by decide)
